import Mathlib

/-!
Verification development for the creoleparser parsing engine
(src/creoleparser/core.py and src/trunk/creoleparser/elements.py).

Strings are modelled as lists of characters.  The fragment store is an
association list; placeholder ids are decimal digit strings generated from
the store size (the Python source uses id(obj), which is merely required
to be unique per parse; a deterministic counter is a faithful choice of
that freedom).
-/

abbrev Text := List Char

abbrev chars (s : String) : Text := s.data

/-- Output fragments: literal text runs, built tag nodes (genshi Elements),
keyword-argument pairs, python lists and python dicts as produced by the
argument-string elements. -/
inductive Frag where
  | txt (s : Text) : Frag
  | node (tag : Text) (children : List Frag) : Frag
  | pair (key : Text) (val : Frag) : Frag
  | fragList (l : List Frag) : Frag
  | fdict (entries : List (Text × Frag)) : Frag

abbrev Store := List (Text × Frag)

def storeLookup (st : Store) (k : Text) : Option Frag :=
  match st with
  | [] => none
  | (k2, v) :: rest => if k2 = k then some v else storeLookup rest k

/-! ## Escape model (src/creoleparser/core.py lines 15-17)

escape_char is the tilde.  esc_neg_look is the lookbehind (?<!~): a token
position is blocked exactly when the character immediately before it is a
tilde, with no further condition on that tilde. -/

/-- The lookbehind (?<!~) at position i of the original text, presented as
a predicate on the character preceding the position (none at position 0). -/
def escNegOk (prev : Option Char) : Bool :=
  prev ≠ some '~'

/-- Position-indexed form of the (?<!~) test: the code treats position i as
escaped iff the character at i-1 is the escape character. -/
def isEscapedAt (cs : Text) (i : Nat) : Bool :=
  decide (0 < i) && decide (cs.get? (i - 1) = some '~')

/-- esc_to_remove, the pattern (?<!~)~(?!([ \n]|$)), applied by re.sub with
the empty replacement at the base case of fragmentize.  The sub scan walks
the original text once; lookbehind and lookahead both read the original
characters, so the previous original character is carried along. -/
def escToRemoveAux (prev : Option Char) (cs : Text) : Text :=
  match cs with
  | [] => []
  | c :: rest =>
    if c = '~' && escNegOk prev &&
        (match rest with
         | [] => false
         | c2 :: _ => decide (c2 ≠ ' ') && decide (c2 ≠ '\n')) then
      escToRemoveAux (some c) rest
    else
      c :: escToRemoveAux (some c) rest

/-- esc_to_remove.sub applied to a whole text (core.py line 208). -/
def escToRemove (cs : Text) : Text :=
  escToRemoveAux none cs

/-! ## Placeholder resolution (src/creoleparser/core.py lines 18, 214-229)

place_holder_re is <<<(-?\d+?)>>>.  fill_from_store repeatedly searches for
the leftmost placeholder, emits the text before it, then the stored node
for the captured id (or the literal placeholder text when the id is not a
key of the store), and continues on the remainder. -/

def isDigitChar (c : Char) : Bool :=
  decide ('0' ≤ c) && decide (c ≤ '9')

/-- Lazy digit run of place_holder_re: after at least one digit, the first
position where >>> follows ends the group.  Returns the digit run and the
remainder after the closing >>>. -/
def phPrefixGt : Text → Bool
  | '>' :: '>' :: '>' :: _ => true
  | _ => false

def placeHolderDigits (acc : Text) (cs : Text) : Option (Text × Text) :=
  match cs with
  | [] => none
  | c :: rest =>
    if isDigitChar c then
      if phPrefixGt rest then some ((acc ++ [c]), rest.drop 3)
      else placeHolderDigits (acc ++ [c]) rest
    else
      none

/-- Match of place_holder_re at the current position: literal <<<, an
optional minus sign, a lazy digit run, then >>>.  Returns the captured
group (with the sign) and the remainder after the match. -/
def placeHolderHere (cs : Text) : Option (Text × Text) :=
  match cs with
  | '<' :: '<' :: '<' :: rest =>
    (match rest with
     | '-' :: rest2 =>
       match placeHolderDigits [] rest2 with
       | some (ds, tail) => some ('-' :: ds, tail)
       | none =>
         match placeHolderDigits [] rest with
         | some (ds, tail) => some (ds, tail)
         | none => none
     | _ =>
       match placeHolderDigits [] rest with
       | some (ds, tail) => some (ds, tail)
       | none => none)
  | _ => none

/-- Leftmost search of place_holder_re: returns the text before the match,
the captured id group, and the text after the match. -/
def placeHolderSearch (cs : Text) : Option (Text × Text × Text) :=
  match cs with
  | [] => none
  | c :: rest =>
    match placeHolderHere (c :: rest) with
    | some (grp, tail) => some ([], grp, tail)
    | none =>
      match placeHolderSearch rest with
      | some (pre, grp, tail) => some (c :: pre, grp, tail)
      | none => none

/-- The literal diagnostic text mo.group(1).join(drop [<<<, >>>]) used when
the id is not a key of the store (core.py lines 220-221). -/
def placeHolderLiteral (grp : Text) : Text :=
  chars "<<<" ++ grp ++ chars ">>>"

/-- fill_from_store (core.py lines 214-229), fuelled so that the
definition evaluates by kernel reduction.  The loop body: emit the text
before the match when nonempty, emit the stored node or the literal
placeholder, and continue on the remainder unless the match ended the
text; when no match remains the whole text is emitted. -/
def fillFromStoreAux (fuel : Nat) (cs : Text) (st : Store) : List Frag :=
  match fuel with
  | 0 => []
  | fuel + 1 =>
    match placeHolderSearch cs with
    | none => [Frag.txt cs]
    | some (pre, grp, tail) =>
      (if pre = [] then [] else [Frag.txt pre]) ++
      [(storeLookup st grp).getD (Frag.txt (placeHolderLiteral grp))] ++
      (if tail = [] then [] else fillFromStoreAux fuel tail st)

def fillFromStore (cs : Text) (st : Store) : List Frag :=
  fillFromStoreAux (cs.length + 1) cs st

/-! ## Placeholder id generation

The Python source uses str(id(processed)) as the store key; the only
property the engine relies on is that keys are fresh decimal strings.
This embedding uses the decimal representation of the store size, which is
fresh because the store only ever grows. -/

def digitChar (n : Nat) : Char :=
  match n with
  | 0 => '0' | 1 => '1' | 2 => '2' | 3 => '3' | 4 => '4'
  | 5 => '5' | 6 => '6' | 7 => '7' | 8 => '8' | _ => '9'

def natDigitsAux (fuel n : Nat) : Text :=
  match fuel with
  | 0 => []
  | fuel + 1 =>
    if n < 10 then [digitChar n]
    else natDigitsAux fuel (n / 10) ++ [digitChar (n % 10)]

def natDigits (n : Nat) : Text :=
  natDigitsAux (n + 1) n

/-! ## Match data and scanning primitives

Each wiki element owns a compiled regular expression; fragmentize only
uses regexp.search (leftmost match) and regexp.finditer (all
non-overlapping matches, scanned left to right).  A matcher receives the
absolute position (for the ^ anchor), the previous original character (for
the (?<!~) lookbehind) and the remaining text (whose end realises the $
anchor), and reports the match length together with the captured groups
the builder needs. -/

structure MD where
  s : Nat
  e : Nat
  caps : List Text
deriving DecidableEq, Repr

abbrev Matcher := Nat → Option Char → Text → Option (Nat × List Text)

/-- regexp.search from a given position: the leftmost position whose
matcher succeeds wins. -/
def searchFrom (m : Matcher) (i : Nat) (prev : Option Char) (t : Text) : Option MD :=
  match t with
  | [] =>
    (match m i prev [] with
     | some (len, caps) => some ⟨i, i + len, caps⟩
     | none => none)
  | c :: rest =>
    (match m i prev (c :: rest) with
     | some (len, caps) => some ⟨i, i + len, caps⟩
     | none => searchFrom m (i + 1) (some c) rest)

def searchM (m : Matcher) (t : Text) : Option MD :=
  searchFrom m 0 none t

/-- regexp.finditer: repeated leftmost search; scanning resumes after each
match, or one character further for a zero-width match. -/
def finditerAux (m : Matcher) (fuel : Nat) (i : Nat) (prev : Option Char) (t : Text) : List MD :=
  match fuel with
  | 0 => []
  | fuel + 1 =>
    match searchFrom m i prev t with
    | none => []
    | some md =>
      let adv := if md.e = md.s then md.s + 1 - i else md.e - i
      let newPrev := match (t.take adv).getLast? with
                     | some c => some c
                     | none => prev
      md :: finditerAux m fuel (i + adv) newPrev (t.drop adv)

def finditerM (m : Matcher) (t : Text) : List MD :=
  finditerAux m (t.length + 1) 0 none t

/-- The closest-match selection of fragmentize for a grouped grammar item
(src/creoleparser/core.py lines 187-194): all members are searched and the
match with the smallest start offset is kept; the comparison is strict, so
the first-declared member wins a tie. -/
def groupSelectAux {α : Type} (search : α → Option MD) (es : List α)
    (acc : Option (α × MD)) : Option (α × MD) :=
  match es with
  | [] => acc
  | e :: rest =>
    match search e with
    | none => groupSelectAux search rest acc
    | some m =>
      match acc with
      | none => groupSelectAux search rest (some (e, m))
      | some (_, m0) =>
        if m.s < m0.s then groupSelectAux search rest (some (e, m))
        else groupSelectAux search rest acc

def groupSelect {α : Type} (search : α → Option MD) (es : List α) : Option (α × MD) :=
  groupSelectAux search es none

/-! ## Element regular expressions

Faithful executions of the re_string patterns of the element classes in
src/trunk/creoleparser/elements.py, specialised to the non-greedy and
backtracking behaviour of the Python re engine. -/

/-- Prefix test recursing on the pattern first, so that a known pattern
reduces against a partially known text. -/
def prefixAt : Text → Text → Bool
  | [], _ => true
  | _ :: _, [] => false
  | a :: as, b :: bs => (a == b) && prefixAt as bs

/-- The unanchored, non-MULTILINE dollar: end of text, or just before a
final newline. -/
def dollarOk (t : Text) : Bool :=
  decide (t = []) || decide (t = ['\n'])

/-- The content scan of InlineElement.re_string for a one-string token:
pattern tok(.+?)((?<!~)tok|$) with DOTALL.  The content is grown one
character at a time (non-greedy); at each boundary the closing token is
tried first (it needs the lookbehind on the last content character) and
the dollar alternative second; the non-MULTILINE dollar matches at end of
text or just before a final newline.  Returns the content and whether the
match ended with the closing token. -/
def inlineEndScan (tok : Text) (acc : Text) (last : Char) (rem : Text) : Text × Bool :=
  if escNegOk (some last) && prefixAt tok rem then (acc, true)
  else if dollarOk rem then (acc, false)
  else
    match rem with
    | [] => (acc, false)
    | c :: rest => inlineEndScan tok (acc ++ [c]) c rest

/-- Match of InlineElement.re_string (trunk elements.py lines 185-189,
one-string token case) at the current position. -/
def inlineHere (tok : Text) (prev : Option Char) (t : Text) : Option (Nat × Text) :=
  if escNegOk prev && prefixAt tok t then
    match t.drop tok.length with
    | [] => none
    | c :: rest =>
      let res := inlineEndScan tok [c] c rest
      some (tok.length + res.1.length + (if res.2 then tok.length else 0), res.1)
  else none

/-- Match of SimpleElement.re_string (trunk elements.py lines 233-238):
the token alternation is tried in declaration order, the back-reference
forces the closing token to equal the opening one, and the end-of-text
alternative applies as for InlineElement. -/
def simpleHere (toks : List Text) (prev : Option Char) (t : Text) :
    Option (Nat × Text × Text) :=
  match toks with
  | [] => none
  | tk :: more =>
    match (if escNegOk prev && prefixAt tk t then
             match t.drop tk.length with
             | [] => none
             | c :: rest =>
               let res := inlineEndScan tk [c] c rest
               some (tk.length + res.1.length + (if res.2 then tk.length else 0),
                     tk, res.1)
           else none) with
    | some r => some r
    | none => simpleHere more prev t

/-- The body scan of QuotedArg.re_string and ListArg.re_string: lazy body
(possibly empty) up to the first closing character that passes the
lookbehind; no end-of-text fallback. -/
def closeCharScan (q : Char) (acc : Text) (last : Char) (rem : Text) : Option Text :=
  if escNegOk (some last) && rem.head? = some q then some acc
  else
    match rem with
    | [] => none
    | c :: rest => closeCharScan q (acc ++ [c]) c rest

/-- Match of QuotedArg.re_string (trunk elements.py lines 1270-1272):
(?<!~)(?P)(?P.*?)(?<!~)(?P=quote) with a character class of quote
characters. -/
def quotedHere (quotes : Text) (prev : Option Char) (t : Text) : Option (Nat × Text) :=
  match t with
  | [] => none
  | c :: rest =>
    if escNegOk prev && quotes.contains c then
      match closeCharScan c [] c rest with
      | some body => some (body.length + 2, body)
      | none => none
    else none

def isWordChar (c : Char) : Bool :=
  (decide ('a' ≤ c) && decide (c ≤ 'z')) ||
  (decide ('A' ≤ c) && decide (c ≤ 'Z')) ||
  isDigitChar c || decide (c = '_')

/-- The head test shared by KeywordArgs.re_string and the lookahead of
KeywordArg.re_string: a nonempty word run, optional spaces, then the
keyword token (the = sign of the creepy dialect). -/
def kwHeadOk (t : Text) : Bool :=
  let w := t.takeWhile isWordChar
  decide (w ≠ []) && decide (((t.drop w.length).dropWhile (fun c => c = ' ')).head? = some '=')

/-- Match of KeywordArgs.re_string (trunk elements.py lines 1202-1203):
(?P\w+ *=.*)$ with DOTALL.  When the head test passes, the greedy
.* with the dollar consumes the whole remaining text, which is the body
group. -/
def kwArgsHere : Matcher := fun _ prev t =>
  let _ := prev
  if kwHeadOk t then some (t.length, [t]) else none

/-- Match of PositionalArgs.re_string (trunk elements.py lines 1258-1259):
^(?P.*)$ with DOTALL but not MULTILINE, so it matches exactly at
position 0 and the greedy body is the whole text. -/
def posArgsHere : Matcher := fun i _ t =>
  if i = 0 then some (t.length, [t]) else none

def lookAheadOk (t : Text) : Bool :=
  kwHeadOk t || dollarOk t

/-- The greedy trailing-space run before the lookahead of
KeywordArg.re_string: the largest j not exceeding the space run such that
the lookahead holds after j spaces. -/
def trailScan (rem : Text) (j : Nat) : Option Nat :=
  if lookAheadOk (rem.drop j) then some j
  else
    match j with
    | 0 => none
    | jj + 1 => trailScan rem jj

/-- The lazy body of KeywordArg.re_string: the smallest body length k for
which some trailing-space run followed by the lookahead succeeds. -/
def kwBodyScan (rest1 : Text) (k : Nat) (fuel : Nat) : Option (Nat × Nat) :=
  match fuel with
  | 0 => none
  | fuel + 1 =>
    let rem := rest1.drop k
    match trailScan rem (rem.takeWhile (fun c => c = ' ')).length with
    | some j => some (k, j)
    | none =>
      if k < rest1.length then kwBodyScan rest1 (k + 1) fuel else none

/-- Match of KeywordArg.re_string (trunk elements.py lines 1237-1239):
(?P\w+) *= *(?P.*?) *(?=\w+ *=|$) with DOTALL. -/
def kwArgHere : Matcher := fun _ prev t =>
  let _ := prev
  let name := t.takeWhile isWordChar
  if name = [] then none
  else
    let afterName := t.drop name.length
    let sp1 := afterName.takeWhile (fun c => c = ' ')
    match (afterName.drop sp1.length).head? with
    | some '=' =>
      let afterEq := afterName.drop (sp1.length + 1)
      let sp2 := afterEq.takeWhile (fun c => c = ' ')
      let rest1 := afterEq.drop sp2.length
      match kwBodyScan rest1 0 (rest1.length + 1) with
      | some (k, j) =>
        some (name.length + sp1.length + 1 + sp2.length + k + j,
              [name, rest1.take k])
      | none => none
    | _ => none

/-- The body scan of ExplicitListArg.re_string: lazy body up to the first
closing bracket that passes the lookbehind and is followed by the
dollar. -/
def explicitCloseScan (q : Char) (acc : Text) (last : Char) (rem : Text) : Option Text :=
  if escNegOk (some last) && rem.head? = some q && dollarOk (rem.drop 1) then some acc
  else
    match rem with
    | [] => none
    | c :: rest => explicitCloseScan q (acc ++ [c]) c rest

/-- Match of ListArg.re_string (trunk elements.py lines 1285-1286):
(?<!~)\[(?P.*?)(?<!~)\]. -/
def listArgHere : Matcher := fun _ prev t =>
  match t with
  | '[' :: rest =>
    if escNegOk prev then
      match closeCharScan ']' [] '[' rest with
      | some body => some (body.length + 2, [body])
      | none => none
    else none
  | _ => none

/-- Match of ExplicitListArg.re_string (trunk elements.py lines
1297-1299): ^(?<!~)\[(?P.*?)(?<!~)\]$. -/
def explicitListArgHere : Matcher := fun i prev t =>
  match t with
  | '[' :: rest =>
    if i = 0 && escNegOk prev then
      match explicitCloseScan ']' [] '[' rest with
      | some body => some (body.length + 2, [body])
      | none => none
    else none
  | _ => none

/-- Match of WhiteSpace.re_string (trunk elements.py lines 1304-1305): one
or more spaces, greedy. -/
def whiteSpaceHere : Matcher := fun _ _ t =>
  let run := t.takeWhile (fun c => c = ' ')
  if run = [] then none else some (run.length, [])

/-! ## Wiki elements and grammars

A grammar is the ordered list passed to fragmentize; each item is either a
single element or a group (python list/tuple) of elements searched
simultaneously.  The element constructors carry the configuration the
dialect assembly supplies (tokens, token dictionary, child grammar). -/

mutual
inductive Elem where
  | inline (tag : Text) (tok : Text) (children : List GItem) : Elem
  | simple (tokenDict : List (Text × Text)) (children : List GItem) : Elem
  | quotedArg (quotes : Text) (children : List GItem) : Elem
  | kwArgs (children : List GItem) : Elem
  | kwArg (children : List GItem) : Elem
  | posArgs (children : List GItem) : Elem
  | listArg (children : List GItem) : Elem
  | explicitListArg (children : List GItem) : Elem
  | whiteSpace : Elem
inductive GItem where
  | single (e : Elem) : GItem
  | group (es : List Elem) : GItem
end

def Elem.matcher : Elem → Matcher
  | Elem.inline _ tok _ => fun _ prev t =>
      (inlineHere tok prev t).map (fun r => (r.1, [r.2]))
  | Elem.simple dict _ => fun _ prev t =>
      (simpleHere (dict.map Prod.fst) prev t).map (fun r => (r.1, [r.2.1, r.2.2]))
  | Elem.quotedArg quotes _ => fun _ prev t =>
      (quotedHere quotes prev t).map (fun r => (r.1, [r.2]))
  | Elem.kwArgs _ => kwArgsHere
  | Elem.kwArg _ => kwArgHere
  | Elem.posArgs _ => posArgsHere
  | Elem.listArg _ => listArgHere
  | Elem.explicitListArg _ => explicitListArgHere
  | Elem.whiteSpace => whiteSpaceHere

def Elem.children : Elem → List GItem
  | Elem.inline _ _ ch => ch
  | Elem.simple _ ch => ch
  | Elem.quotedArg _ ch => ch
  | Elem.kwArgs ch => ch
  | Elem.kwArg ch => ch
  | Elem.posArgs ch => ch
  | Elem.listArg ch => ch
  | Elem.explicitListArg ch => ch
  | Elem.whiteSpace => []

/-- Which classes inherit InlineElement._process (placeholder splicing);
the ArgString family uses the generic WikiElement._process. -/
def Elem.usesInlineProcess : Elem → Bool
  | Elem.inline _ _ _ => true
  | Elem.simple _ _ => true
  | Elem.quotedArg _ _ => true
  | _ => false

/-- append_newline defaults to False on WikiElement and none of the
modelled subclasses overrides it. -/
def Elem.appendNewline : Elem → Bool := fun _ => false

/-- The type of the recursive fragmentize call: text, grammar, store and
the remove_escapes flag. -/
abbrev FragFun := Text → List GItem → Store → Bool → Option (List Frag × Store)

/-- The 0.7 dict merge of KeywordArgs.dictify (trunk elements.py lines
1208-1229).  A non-pair entry corresponds to a python unpacking error and
yields none. -/
def macroArgsKeys : List Text :=
  [chars "name", chars "arg_string", chars "body", chars "isblock", chars "environ"]

def dictReplace (d : List (Text × Frag)) (k : Text) (v : Frag) : List (Text × Frag) :=
  match d with
  | [] => []
  | (k2, v2) :: rest =>
    if k2 = k then (k2, v) :: rest else (k2, v2) :: dictReplace rest k v

def dictifyAux (d : List (Text × Frag)) (l : List Frag) : Option (List (Text × Frag)) :=
  match l with
  | [] => some d
  | Frag.pair k v :: rest =>
    let k2 := if macroArgsKeys.contains k then k ++ ['_'] else k
    (match storeLookup d k2 with
     | none => dictifyAux (d ++ [(k2, v)]) rest
     | some old =>
       let merged :=
         match v, old with
         | Frag.fragList vl, Frag.fragList ol => Frag.fragList (ol ++ vl)
         | Frag.fragList vl, o => Frag.fragList (o :: vl)
         | v2, Frag.fragList ol => Frag.fragList (ol ++ [v2])
         | v2, o => Frag.fragList [o, v2]
       dictifyAux (dictReplace d k2 merged) rest)
  | _ => none

def dictify (l : List Frag) : Option (List (Text × Frag)) :=
  dictifyAux [] l

/-- The _build methods (trunk elements.py).  The recursive fragmentize
call is supplied as f; the result is the built value (none models a
_build returning None, which the generic process skips) together with the
updated store. -/
def Elem.build (f : FragFun) (e : Elem) (md : MD) (st : Store) :
    Option (Option Frag × Store) :=
  match e, md.caps with
  | Elem.inline tag _ ch, [content] =>
    (f content ch st true).map (fun r => (some (Frag.node tag r.1), r.2))
  | Elem.simple dict ch, [tk, content] =>
    (match storeLookup (dict.map (fun p => (p.1, Frag.txt p.2))) tk with
     | some (Frag.txt tag) =>
       (f content ch st true).map (fun r => (some (Frag.node tag r.1), r.2))
     | _ => none)
  | Elem.quotedArg _ ch, [body] =>
    if body = [] then some (some (Frag.txt []), st)
    else
      match f body ch st true with
      | some ([v], st2) => some (some v, st2)
      | _ => none
  | Elem.kwArgs ch, [body] =>
    match f body ch st true with
    | some (l, st2) =>
      (match dictify l with
       | some d => some (some (Frag.fdict d), st2)
       | none => none)
    | none => none
  | Elem.kwArg ch, [name, body] =>
    if body = [] then some (some (Frag.pair name (Frag.txt [])), st)
    else
      match f body ch st true with
      | some ([v], st2) => some (some (Frag.pair name v), st2)
      | some (l, st2) => some (some (Frag.pair name (Frag.fragList l)), st2)
      | none => none
  | Elem.posArgs ch, [body] =>
    if body = [] then some (some (Frag.fragList []), st)
    else (f body ch st true).map (fun r => (some (Frag.fragList r.1), r.2))
  | Elem.listArg ch, [body] =>
    if body = [] then some (some (Frag.fragList []), st)
    else (f body ch st true).map (fun r => (some (Frag.fragList r.1), r.2))
  | Elem.explicitListArg ch, [body] =>
    if body = [] then some (some (Frag.fragList []), st)
    else (f body ch st true).map (fun r => (some (Frag.fragList r.1), r.2))
  | Elem.whiteSpace, _ => some (none, st)
  | _, _ => none

/-- The sliceTxt text[a:b] on character lists. -/
def sliceTxt (t : Text) (a b : Nat) : Text :=
  (t.drop a).take (b - a)

/-- The loop of InlineElement._process (trunk elements.py lines 196-207):
each match is built, stored under a fresh id, and replaced by the literal
placeholder; the parts are joined with the trailing text.  Returns the new
text from position endPos on, with the updated store. -/
def inlineProcessAux (f : FragFun) (e : Elem) (mos : List MD) (t : Text)
    (endPos : Nat) (st : Store) : Option (Text × Store) :=
  match mos with
  | [] => some ((if endPos < t.length then t.drop endPos else []), st)
  | mo :: rest =>
    match Elem.build f e mo st with
    | some (some fr, st1) =>
      let sid := natDigits st1.length
      let st2 := st1 ++ [(sid, fr)]
      (match inlineProcessAux f e rest t mo.e st2 with
       | some (tailText, st3) =>
         some (sliceTxt t endPos mo.s ++ chars "<<<" ++ sid ++ chars ">>>" ++ tailText, st3)
       | none => none)
    | _ => none

/-- The grammar used for the recursive call after placeholder splicing
(trunk elements.py lines 208-209): the head element is dropped unless it
is a group. -/
def nextElements (g : List GItem) : List GItem :=
  match g with
  | GItem.group _ :: _ => g
  | _ => g.tail

/-- InlineElement._process (trunk elements.py lines 194-211). -/
def inlineProcess (f : FragFun) (e : Elem) (mos : List MD) (t : Text)
    (g : List GItem) (st : Store) : Option (List Frag × Store) :=
  match inlineProcessAux f e mos t 0 st with
  | some (newText, st2) => f newText (nextElements g) st2 true
  | none => none

/-- WikiElement._process (trunk elements.py lines 116-144): leading gaps
are fragmentized with the remaining grammar, built nodes are appended, and
the trailing text is fragmentized with the head dropped unless it is a
group. -/
def genericProcessAux (f : FragFun) (e : Elem) (mos : List MD) (t : Text)
    (g : List GItem) (endPos : Nat) (st : Store) : Option (List Frag × Store) :=
  match mos with
  | [] =>
    if endPos < t.length then f (t.drop endPos) (nextElements g) st true
    else some ([], st)
  | mo :: rest =>
    match (if endPos ≠ mo.s then f (sliceTxt t endPos mo.s) g.tail st true
           else some ([], st)) with
    | none => none
    | some (lead, st1) =>
      match Elem.build f e mo st1 with
      | none => none
      | some (builtOpt, st2) =>
        let here := (match builtOpt with
                     | some b => [b]
                     | none => []) ++
                    (if e.appendNewline then [Frag.txt ['\n']] else [])
        match genericProcessAux f e rest t g mo.e st2 with
        | none => none
        | some (tailFrags, st3) => some (lead ++ here ++ tailFrags, st3)

def Elem.process (f : FragFun) (e : Elem) (mos : List MD) (t : Text)
    (g : List GItem) (st : Store) : Option (List Frag × Store) :=
  if e.usesInlineProcess then inlineProcess f e mos t g st
  else genericProcessAux f e mos t g 0 st

/-- fragmentize (src/creoleparser/core.py lines 160-211), fuelled.  The
while loop searches the head grammar item (closest match of a group, or
all matches of a single element); a match dispatches to the element
_process, otherwise the head is dropped; an empty grammar removes escapes
(when requested) and resolves placeholders from the store. -/
def fragmentizeF : Nat → FragFun
  | 0, _, _, _, _ => none
  | _ + 1, t, [], st, removeEsc =>
    some (fillFromStore (if removeEsc then escToRemove t else t) st, st)
  | n + 1, t, GItem.group es :: rest, st, removeEsc =>
    (match groupSelect (fun e => searchM (Elem.matcher e) t) es with
     | some (e, mo) => Elem.process (fragmentizeF n) e [mo] t (GItem.group es :: rest) st
     | none => fragmentizeF n t rest st removeEsc)
  | n + 1, t, GItem.single e :: rest, st, removeEsc =>
    (match finditerM (Elem.matcher e) t with
     | [] => fragmentizeF n t rest st removeEsc
     | mo :: mos => Elem.process (fragmentizeF n) e (mo :: mos) t (GItem.single e :: rest) st)

/-! ## Parser.generate (src/creoleparser/core.py lines 44-79)

In block context the text is preprocessed (newline normalisation) and the
dialect grammar is applied; a missing element_store means a freshly
created empty dict for this invocation (lines 63-64). -/

def replCRLF : Text → Text
  | [] => []
  | '\r' :: '\n' :: rest => '\n' :: replCRLF rest
  | c :: rest => c :: replCRLF rest

/-- preprocess (core.py lines 232-244): CRLF then CR are normalised. -/
def preprocessTxt (t : Text) : Text :=
  (replCRLF t).map (fun c => if c = '\r' then '\n' else c)

/-- Parser.generate restricted to the parsing engine: the dialect grammar
is the opaque configuration input, and the Genshi stream construction is
the external tree builder. -/
def parserGenerate (g : List GItem) (fuel : Nat) (t : Text)
    (elementStore : Option Store) : Option (List Frag × Store) :=
  let st := match elementStore with
            | none => ([] : Store)
            | some s => s
  fragmentizeF fuel (preprocessTxt t) g st true

/-! ## The Creepy argument dialect (trunk dialects.py lines 331-354)

creepy_base wires quoted_arg, kw_args, pos_args as the top elements with
the child grammars fixed in Base.__init__. -/

def spacesE : Elem := Elem.whiteSpace

def listArgE : Elem := Elem.listArg [GItem.single spacesE]

def explicitListArgE : Elem := Elem.explicitListArg [GItem.single spacesE]

def kwArgE : Elem := Elem.kwArg [GItem.single explicitListArgE, GItem.single spacesE]

def kwArgsE : Elem := Elem.kwArgs [GItem.single kwArgE]

def posArgsE : Elem := Elem.posArgs [GItem.single listArgE, GItem.single spacesE]

def quotedArgE : Elem := Elem.quotedArg (chars "'\"") []

def creepyTop : List GItem :=
  [GItem.single quotedArgE, GItem.single kwArgsE, GItem.single posArgsE]

/-- ArgParser.__call__ (src/creoleparser/core.py lines 128-157) without
force_strings: fragmentize the argument string over the top elements of
the dialect, assert at most two fragments, and sort them into the
positional list and the keyword dict by the isinstance(list) test. -/
def argAcc (acc : Frag × Frag) (fr : Frag) : Frag × Frag :=
  match fr with
  | Frag.fragList l => (Frag.fragList l, acc.2)
  | other => (acc.1, other)

def argParserCall (fuel : Nat) (s : Text) : Option (Frag × Frag) :=
  match fragmentizeF fuel s creepyTop [] true with
  | none => none
  | some (frags, _) =>
    if frags.length ≤ 2 then
      some (frags.foldl argAcc (Frag.fragList [], Frag.fdict []))
    else none

/-! ## Bodied macro body extraction (elements.py BodiedMacro._build,
src/creoleparser/elements.py lines 288-306 and
src/trunk/creoleparser/elements.py lines 317-335)

The local start pattern is (?<!~)<<name(?P<arg_string>[ \S]*?)>> and the
local end pattern is (?<!~)<</name>>, with the creole macro tokens << and
>>.  The matches of start|end are scanned in order while a counter is
incremented on each end and decremented on each start; at the first point
the counter is positive the body is cut there and the remainder, with the
close token re-appended, becomes the tail. -/

/-- The character class [ \S]: everything except non-space whitespace. -/
def isArgChar (c : Char) : Bool :=
  decide (c ≠ '\t') && decide (c ≠ '\n') && decide (c ≠ '\r') &&
  decide (c ≠ '\x0b') && decide (c ≠ '\x0c')

/-- Lazy scan of (?P<arg_string>[ \S]*?) followed by the literal token
close. -/
def argStrScan (acc : Text) (rem : Text) : Option (Text × Text) :=
  if prefixAt (chars ">>") rem then some (acc, rem.drop 2)
  else
    match rem with
    | [] => none
    | c :: rest => if isArgChar c then argStrScan (acc ++ [c]) rest else none

def closeTokText (name : Text) : Text :=
  chars "<</" ++ name ++ chars ">>"

/-- Match of the local start pattern at the current position; returns the
match length. -/
def macroOpenHere (name : Text) (prev : Option Char) (t : Text) : Option Nat :=
  if escNegOk prev && prefixAt (chars "<<" ++ name) t then
    match argStrScan [] (t.drop (2 + name.length)) with
    | some (args, _) => some (2 + name.length + args.length + 2)
    | none => none
  else none

/-- Match of the local end pattern at the current position. -/
def macroCloseHere (name : Text) (prev : Option Char) (t : Text) : Option Nat :=
  if escNegOk prev && prefixAt (closeTokText name) t then
    some (name.length + 5)
  else none

/-- re.finditer(start + | + end, body): leftmost non-overlapping matches,
trying the start alternative first at each position. -/
def macroTokScan (name : Text) (fuel : Nat) (i : Nat) (prev : Option Char)
    (t : Text) : List (Nat × Nat) :=
  match fuel with
  | 0 => []
  | fuel + 1 =>
    match t with
    | [] => []
    | c :: rest =>
      match macroOpenHere name prev t with
      | some len =>
        (i, i + len) :: macroTokScan name fuel (i + len) ((t.take len).getLast?) (t.drop len)
      | none =>
        match macroCloseHere name prev t with
        | some len =>
          (i, i + len) :: macroTokScan name fuel (i + len) ((t.take len).getLast?) (t.drop len)
        | none => macroTokScan name fuel (i + 1) (some c) rest

def macroTokens (name : Text) (body : Text) : List (Nat × Nat) :=
  macroTokScan name (body.length + 1) 0 none body

/-- The classification re.match(end, mo2.group(0)): the matched substring
is an end token iff it starts with the close token text. -/
def isEndTok (name : Text) (body : Text) (sp : Nat × Nat) : Bool :=
  prefixAt (closeTokText name) (sliceTxt body sp.1 sp.2)

/-- The counter loop of BodiedMacro._build: count increments on end
tokens, decrements on start tokens, and the loop breaks at the first
token after which the count is positive. -/
def macroCountScan (name : Text) (body : Text) (toks : List (Nat × Nat))
    (count : Int) : Option (Nat × Nat) :=
  match toks with
  | [] => none
  | sp :: rest =>
    let count2 := if isEndTok name body sp then count + 1 else count - 1
    if count2 > 0 then some sp else macroCountScan name body rest count2

/-- BodiedMacro._build body/tail extraction: when the counter scan breaks
at a token, the body is cut before it and the text after it plus the
close token is the tail; otherwise the whole body stands and the tail is
empty. -/
def bodiedSplit (name : Text) (body : Text) : Text × Text :=
  match macroCountScan name body (macroTokens name body) 0 with
  | some sp => (body.take sp.1, body.drop sp.2 ++ closeTokText name)
  | none => (body, [])

/-! # Theorems -/

/-! ## C4: escape removal at the base case -/

/-- The position predicate of the esc_to_remove deletion, relative to a
context character before the text: the character is a tilde, the previous
original character (the context for position 0) is not a tilde, and the
next character exists and is neither a space nor a newline. -/
def escDelCtx (prev : Option Char) (cs : Text) (i : Nat) : Bool :=
  decide (cs.get? i = some '~') &&
  (if i = 0 then escNegOk prev else decide (cs.get? (i - 1) ≠ some '~')) &&
  (match cs.get? (i + 1) with
   | some c2 => decide (c2 ≠ ' ') && decide (c2 ≠ '\n')
   | none => false)

/-- Deleted positions of esc_to_remove on a whole text. -/
def escDeleted (cs : Text) (i : Nat) : Bool := escDelCtx none cs i

theorem escDelCtx_shift (prev : Option Char) (c : Char) (rest : Text) (i : Nat) :
    escDelCtx prev (c :: rest) (i + 1) = escDelCtx (some c) rest i := by
  cases i with
  | zero =>
    simp [escDelCtx, escNegOk, List.get?]
  | succ k =>
    simp [escDelCtx, List.get?]

theorem escDelCtx_zero (prev : Option Char) (c : Char) (rest : Text) :
    escDelCtx prev (c :: rest) 0 =
      (decide (c = '~') && escNegOk prev &&
        (match rest with
         | [] => false
         | c2 :: _ => decide (c2 ≠ ' ') && decide (c2 ≠ '\n'))) := by
  cases rest <;> simp [escDelCtx, List.get?]

theorem escToRemoveAux_spec (cs : Text) : ∀ prev,
    escToRemoveAux prev cs =
      ((List.range cs.length).filter (fun i => !escDelCtx prev cs i)).filterMap
        (fun i => cs.get? i) := by
  induction cs with
  | nil => intro prev; rfl
  | cons c rest ih =>
    intro prev
    have hrange : List.range (rest.length + 1) = 0 :: (List.range rest.length).map Nat.succ :=
      List.range_succ_eq_map rest.length
    have hshift :
        ((List.range rest.length).map Nat.succ).filter
            (fun i => !escDelCtx prev (c :: rest) i) =
          ((List.range rest.length).filter
            (fun i => !escDelCtx (some c) rest i)).map Nat.succ := by
      rw [List.filter_map]
      congr 1
      apply List.filter_congr
      intro a _
      simp [Function.comp, escDelCtx_shift]
    have hmap :
        (((List.range rest.length).filter
            (fun i => !escDelCtx (some c) rest i)).map Nat.succ).filterMap
          (fun i => (c :: rest).get? i) =
        ((List.range rest.length).filter
            (fun i => !escDelCtx (some c) rest i)).filterMap
          (fun i => rest.get? i) := by
      rw [List.filterMap_map]
      rfl
    have hbase : escToRemoveAux prev (c :: rest) =
        (if escDelCtx prev (c :: rest) 0 then escToRemoveAux (some c) rest
         else c :: escToRemoveAux (some c) rest) := by
      rw [escDelCtx_zero]
      rfl
    cases hB : escDelCtx prev (c :: rest) 0 with
    | true =>
      rw [hbase, if_pos hB, ih (some c), List.length_cons, hrange, List.filter_cons]
      simp only [hB, Bool.not_true, Bool.false_eq_true, if_false]
      rw [hshift, hmap]
    | false =>
      rw [hbase, if_neg (by simp [hB]), ih (some c), List.length_cons, hrange,
        List.filter_cons]
      simp only [hB, Bool.not_false, if_true]
      rw [List.filterMap_cons]
      simp only [List.get?]
      rw [hshift, hmap]

/-- C4 (amended): at the base case with remove_escapes true, exactly those
tildes that are not preceded by a tilde and are followed by a character
that is neither a space nor a newline (in particular not by end of text)
are deleted; the fixture renders its escapes away as the test expects. -/
theorem c4_escape_removal :
    (∀ cs : Text,
      escToRemove cs =
        ((List.range cs.length).filter (fun i => !escDeleted cs i)).filterMap
          (fun i => cs.get? i)) ∧
    escToRemove (chars "preventing markup for ~**bold~** and ~//italics~//") =
      chars "preventing markup for **bold** and //italics//" ∧
    escToRemove (chars "~~") = chars "~" := by
  refine ⟨fun cs => escToRemoveAux_spec cs none, ?_, ?_⟩ <;> rfl

/-- C4 counterexample: a tilde followed by a tab (a whitespace character)
is removed by esc_to_remove, because the lookahead class is only a space
or a newline; the claim as stated keeps every escape followed by
whitespace. -/
theorem c4_counterexample :
    escToRemove (chars "~\tx") = chars "\tx" ∧ Char.isWhitespace '\t' = true := by
  exact ⟨rfl, rfl⟩

/-! ## C5: the escaped-token predicate -/

/-- The predicate the claim describes: the previous character is the
escape character and that escape character is itself not escaped. -/
def claimEscapedAt (cs : Text) (i : Nat) : Bool :=
  decide (0 < i) && decide (cs.get? (i - 1) = some '~') && !(isEscapedAt cs (i - 1))

/-- C5 counterexample: at position 2 of a text beginning with two tildes
the code predicate (?<!~) holds, the claim predicate does not, and the
inline matcher for the // token finds no match in the text tilde tilde
slash slash a slash slash, so the token after the doubled escape is not
recognized as markup. -/
theorem c5_counterexample :
    isEscapedAt (chars "~~//") 2 = true ∧
    claimEscapedAt (chars "~~//") 2 = false ∧
    searchM (Elem.matcher (Elem.inline (chars "em") (chars "//") []))
      (chars "~~//a//") = none := by
  exact ⟨rfl, rfl, rfl⟩

/-- C5 (amended): the escaped-token predicate holds at a position iff the
character immediately before it is the escape character, with no
condition on whether that escape is itself escaped; the inline matcher
only accepts positions passing this lookbehind. -/
theorem c5_escaped_predicate :
    (∀ (cs : Text) (i : Nat),
      isEscapedAt cs i = true ↔ 0 < i ∧ cs.get? (i - 1) = some '~') ∧
    (∀ (tok : Text) (prev : Option Char) (t : Text) (r : Nat × Text),
      inlineHere tok prev t = some r → escNegOk prev = true) := by
  constructor
  · intro cs i
    simp [isEscapedAt]
  · intro tok prev t r h
    unfold inlineHere at h
    by_cases hc : (escNegOk prev && prefixAt tok t) = true
    · exact (Bool.and_eq_true _ _ |>.mp hc).1
    · rw [if_neg hc] at h
      exact absurd h (by simp)

/-- C5 witness: the amended predicate and the matcher lookbehind at
concrete inputs. -/
theorem c5_witness :
    escNegOk (some 'a') = true ∧ isEscapedAt (chars "a~b") 2 = true := by
  constructor
  · exact c5_escaped_predicate.2 (chars "//") (some 'a') (chars "//b//")
      (5, chars "b") rfl
  · exact (c5_escaped_predicate.1 (chars "a~b") 2).mpr (by decide)

/-! ## Named dialect-style elements used by concrete instances -/

def strongEl : Elem := Elem.simple [(chars "**", chars "strong")] []

def emEl : Elem := Elem.inline (chars "em") (chars "//") []

/-- An InlineElement whose token is the less-than sign; a legitimate
instance of the element class, used to exhibit non-termination. -/
def ltInline : Elem := Elem.inline (chars "em") (chars "<") []

/-! ## C1: leftmost-match selection within a group -/

/-- Reference recursion for the group loop: the head wins against the
tail winner unless the tail winner starts strictly earlier. -/
def groupSelectSpec {α : Type} (search : α → Option MD) : List α → Option (α × MD)
  | [] => none
  | e :: rest =>
    match search e, groupSelectSpec search rest with
    | none, r => r
    | some m, none => some (e, m)
    | some m, some (e2, m2) => if m2.s < m.s then some (e2, m2) else some (e, m)

def gsCombine {α : Type} (acc r : Option (α × MD)) : Option (α × MD) :=
  match acc, r with
  | none, r => r
  | some a, none => some a
  | some (e0, m0), some (e1, m1) =>
    if m1.s < m0.s then some (e1, m1) else some (e0, m0)

theorem groupSelectAux_combine {α : Type} (search : α → Option MD) (es : List α) :
    ∀ acc, groupSelectAux search es acc = gsCombine acc (groupSelectSpec search es) := by
  induction es with
  | nil =>
    intro acc
    cases acc with
    | none => rfl
    | some a => cases a; rfl
  | cons e rest ih =>
    intro acc
    cases hse : search e with
    | none =>
      simp only [groupSelectAux, groupSelectSpec, hse]
      exact ih acc
    | some m =>
      cases acc with
      | none =>
        simp only [groupSelectAux, groupSelectSpec, hse]
        rw [ih (some (e, m))]
        cases hrest : groupSelectSpec search rest with
        | none => rfl
        | some p =>
          cases p with
          | mk e2 m2 =>
            by_cases hlt : m2.s < m.s
            · simp [gsCombine, hlt]
            · simp [gsCombine, hlt]
      | some a =>
        cases a with
        | mk e0 m0 =>
          simp only [groupSelectAux, groupSelectSpec, hse]
          by_cases hlt : m.s < m0.s
          · rw [if_pos hlt, ih (some (e, m))]
            cases hrest : groupSelectSpec search rest with
            | none => simp [gsCombine, hlt]
            | some p =>
              cases p with
              | mk e2 m2 =>
                by_cases hlt2 : m2.s < m.s
                · simp [gsCombine, hlt2, lt_trans hlt2 hlt]
                · simp [gsCombine, hlt2, hlt]
          · rw [if_neg hlt, ih (some (e0, m0))]
            cases hrest : groupSelectSpec search rest with
            | none => simp [gsCombine, hlt]
            | some p =>
              cases p with
              | mk e2 m2 =>
                by_cases hlt2 : m2.s < m.s
                · simp [gsCombine, hlt2]
                · have hle : m0.s ≤ m.s := le_of_not_lt hlt
                  have hle2 : m.s ≤ m2.s := le_of_not_lt hlt2
                  have : ¬ m2.s < m0.s := not_lt_of_le (le_trans hle hle2)
                  simp [gsCombine, hlt2, this, hlt]

theorem groupSelectSpec_none {α : Type} (search : α → Option MD) (es : List α)
    (h : groupSelectSpec search es = none) :
    ∀ x ∈ es, search x = none := by
  induction es with
  | nil => intro x hx; cases hx
  | cons e rest ih =>
    intro x hx
    cases hse : search e with
    | some m =>
      exfalso
      simp only [groupSelectSpec, hse] at h
      cases hrest : groupSelectSpec search rest with
      | none => rw [hrest] at h; cases h
      | some p =>
        rw [hrest] at h
        cases p with
        | mk e2 m2 => by_cases hlt : m2.s < m.s <;> simp [hlt] at h
    | none =>
      simp only [groupSelectSpec, hse] at h
      cases hx with
      | head => exact hse
      | tail _ hmem => exact ih h x hmem

theorem groupSelectSpec_sound {α : Type} (search : α → Option MD) (es : List α)
    (e : α) (m : MD) (h : groupSelectSpec search es = some (e, m)) :
    search e = some m ∧
    ∃ l1 l2, es = l1 ++ e :: l2 ∧
      (∀ y ∈ l1, ∀ my, search y = some my → m.s < my.s) ∧
      (∀ y ∈ es, ∀ my, search y = some my → m.s ≤ my.s) := by
  induction es generalizing e m with
  | nil => cases h
  | cons a rest ih =>
    cases hsa : search a with
    | none =>
      simp only [groupSelectSpec, hsa] at h
      obtain ⟨hsearch, l1, l2, hsplit, hstrict, hle⟩ := ih e m h
      refine ⟨hsearch, a :: l1, l2, by rw [hsplit]; rfl, ?_, ?_⟩
      · intro y hy my hmy
        cases hy with
        | head => rw [hsa] at hmy; cases hmy
        | tail _ hmem => exact hstrict y hmem my hmy
      · intro y hy my hmy
        cases hy with
        | head => rw [hsa] at hmy; cases hmy
        | tail _ hmem => exact hle y hmem my hmy
    | some m0 =>
      cases hrest : groupSelectSpec search rest with
      | none =>
        simp only [groupSelectSpec, hsa, hrest] at h
        simp only [Option.some.injEq, Prod.mk.injEq] at h
        obtain ⟨rfl, rfl⟩ := h
        refine ⟨hsa, [], rest, rfl, ?_, ?_⟩
        · intro y hy
          cases hy
        · intro y hy my hmy
          cases hy with
          | head => rw [hsa] at hmy; cases hmy; exact le_refl _
          | tail _ hmem =>
            rw [groupSelectSpec_none search rest hrest y hmem] at hmy
            cases hmy
      | some p =>
        cases p with
        | mk e2 m2 =>
          by_cases hlt : m2.s < m0.s
          · have h2 : groupSelectSpec search (a :: rest) = some (e2, m2) := by
              simp only [groupSelectSpec, hsa, hrest]
              rw [if_pos hlt]
            rw [h2] at h
            simp only [Option.some.injEq, Prod.mk.injEq] at h
            obtain ⟨rfl, rfl⟩ := h
            obtain ⟨hsearch, l1, l2, hsplit, hstrict, hle⟩ := ih _ _ hrest
            refine ⟨hsearch, a :: l1, l2, by rw [hsplit]; rfl, ?_, ?_⟩
            · intro y hy my hmy
              cases hy with
              | head =>
                rw [hsa] at hmy
                cases hmy
                exact hlt
              | tail _ hmem => exact hstrict y hmem my hmy
            · intro y hy my hmy
              cases hy with
              | head =>
                rw [hsa] at hmy
                cases hmy
                exact le_of_lt hlt
              | tail _ hmem => exact hle y hmem my hmy
          · have h2 : groupSelectSpec search (a :: rest) = some (a, m0) := by
              simp only [groupSelectSpec, hsa, hrest]
              rw [if_neg hlt]
            rw [h2] at h
            simp only [Option.some.injEq, Prod.mk.injEq] at h
            obtain ⟨rfl, rfl⟩ := h
            obtain ⟨hsearch2, l1, l2, hsplit, hstrict, hle⟩ := ih _ _ hrest
            refine ⟨hsa, [], rest, rfl, ?_, ?_⟩
            · intro y hy
              cases hy
            · intro y hy my hmy
              cases hy with
              | head => rw [hsa] at hmy; cases hmy; exact le_refl _
              | tail _ hmem =>
                have := hle y hmem my hmy
                exact le_trans (le_of_not_lt hlt) this

/-- C1: when at least one member of a grouped grammar item matches, the
loop at src/creoleparser/core.py lines 187-194 selects a member whose
earliest match starts no later than every member match, and every member
declared before the selected one has a strictly later earliest match, so
equal starts go to the first-declared member. -/
theorem c1_group_leftmost {α : Type} (search : α → Option MD) (es : List α)
    (x : α) (mx : MD) (hx : x ∈ es) (hmx : search x = some mx) :
    ∃ e m l1 l2,
      groupSelect search es = some (e, m) ∧
      search e = some m ∧
      es = l1 ++ e :: l2 ∧
      (∀ y ∈ l1, ∀ my, search y = some my → m.s < my.s) ∧
      (∀ y ∈ es, ∀ my, search y = some my → m.s ≤ my.s) := by
  have hgs : groupSelect search es = groupSelectSpec search es := by
    unfold groupSelect
    rw [groupSelectAux_combine search es none]
    rfl
  cases hspec : groupSelectSpec search es with
  | none =>
    exfalso
    rw [groupSelectSpec_none search es hspec x hx] at hmx
    cases hmx
  | some p =>
    cases p with
    | mk e m =>
      obtain ⟨hsearch, l1, l2, hsplit, hstrict, hle⟩ :=
        groupSelectSpec_sound search es e m hspec
      exact ⟨e, m, l1, l2, by rw [hgs, hspec], hsearch, hsplit, hstrict, hle⟩

/-- C1 witness: in the group strong-then-em over a text where the em
match starts earlier, the selection picks em although it is declared
second. -/
theorem c1_witness :
    ∃ e m l1 l2,
      groupSelect
        (fun el => searchM (Elem.matcher el) (chars "a //b// **c**"))
        [Elem.simple [(chars "**", chars "strong")] [],
         Elem.inline (chars "em") (chars "//") []] = some (e, m) ∧
      searchM (Elem.matcher e) (chars "a //b// **c**") = some m ∧
      [Elem.simple [(chars "**", chars "strong")] [],
       Elem.inline (chars "em") (chars "//") []] = l1 ++ e :: l2 ∧
      (∀ y ∈ l1, ∀ my, searchM (Elem.matcher y) (chars "a //b// **c**") = some my →
        m.s < my.s) ∧
      (∀ y ∈ [Elem.simple [(chars "**", chars "strong")] [],
              Elem.inline (chars "em") (chars "//") []], ∀ my,
        searchM (Elem.matcher y) (chars "a //b// **c**") = some my → m.s ≤ my.s) := by
  exact c1_group_leftmost
    (fun el => searchM (Elem.matcher el) (chars "a //b// **c**"))
    [Elem.simple [(chars "**", chars "strong")] [],
     Elem.inline (chars "em") (chars "//") []]
    (Elem.inline (chars "em") (chars "//") []) ⟨2, 7, [chars "b"]⟩
    (by simp) rfl

/-! ## C3: fragmentize progress and termination -/

theorem digitChar_ne_lt (n : Nat) : digitChar n ≠ '<' := by
  unfold digitChar
  split <;> decide

theorem natDigitsAux_no_lt (fuel : Nat) : ∀ n, '<' ∉ natDigitsAux fuel n := by
  induction fuel with
  | zero => intro n h; simp [natDigitsAux] at h
  | succ k ih =>
    intro n h
    by_cases hn : n < 10
    · simp [natDigitsAux, hn] at h
      exact (digitChar_ne_lt n) h.symm
    · simp [natDigitsAux, hn, List.mem_append] at h
      cases h with
      | inl hmem => exact ih (n / 10) hmem
      | inr heq => exact (digitChar_ne_lt (n % 10)) heq.symm

theorem natDigits_no_lt (n : Nat) : '<' ∉ natDigits n :=
  natDigitsAux_no_lt (n + 1) n

theorem ltInline_search (rest : Text) :
    searchM (Elem.matcher ltInline) ('a' :: '<' :: '<' :: '<' :: rest) =
      some ⟨1, 4, [['<']]⟩ := rfl

theorem ltInline_groupSelect (rest : Text) :
    groupSelect
      (fun e => searchM (Elem.matcher e) ('a' :: '<' :: '<' :: '<' :: rest))
      [ltInline] = some (ltInline, ⟨1, 4, [['<']]⟩) := rfl

theorem ltInline_tail (rest : Text) :
    (if 4 < ('a' :: '<' :: '<' :: '<' :: rest).length
     then ('a' :: '<' :: '<' :: '<' :: rest).drop 4 else []) = rest := by
  cases rest with
  | nil => rfl
  | cons c r => simp [List.drop]

theorem ltInline_diverges_aux :
    ∀ n (rest : Text) (st : Store), '<' ∉ rest →
      fragmentizeF n ('a' :: '<' :: '<' :: '<' :: rest) [GItem.group [ltInline]] st true =
        none := by
  intro n
  induction n with
  | zero => intro rest st _; rfl
  | succ k ih =>
    intro rest st hrest
    have hstep : fragmentizeF (k + 1) ('a' :: '<' :: '<' :: '<' :: rest)
        [GItem.group [ltInline]] st true =
        inlineProcess (fragmentizeF k) ltInline [⟨1, 4, [['<']]⟩]
          ('a' :: '<' :: '<' :: '<' :: rest) [GItem.group [ltInline]] st := by
      rw [fragmentizeF, ltInline_groupSelect]
      rfl
    rw [hstep]
    cases k with
    | zero => rfl
    | succ j =>
      have hbuild : Elem.build (fragmentizeF (j + 1)) ltInline ⟨1, 4, [['<']]⟩ st =
          some (some (Frag.node (chars "em") [Frag.txt ['<']]), st) := rfl
      have haux : inlineProcessAux (fragmentizeF (j + 1)) ltInline [⟨1, 4, [['<']]⟩]
          ('a' :: '<' :: '<' :: '<' :: rest) 0 st =
          some ('a' :: '<' :: '<' :: '<' ::
                  (natDigits st.length ++ '>' :: '>' :: '>' :: rest),
                st ++ [(natDigits st.length, Frag.node (chars "em") [Frag.txt ['<']])]) := by
        unfold inlineProcessAux
        rw [hbuild]
        unfold inlineProcessAux
        rw [ltInline_tail]
        simp [sliceTxt, show (chars "<<<" : Text) = ['<', '<', '<'] from rfl,
              show (chars ">>>" : Text) = ['>', '>', '>'] from rfl]
      unfold inlineProcess
      rw [haux]
      show fragmentizeF (j + 1) _ [GItem.group [ltInline]] _ true = none
      apply ih
      intro hmem
      rw [List.mem_append] at hmem
      cases hmem with
      | inl h1 => exact natDigits_no_lt st.length h1
      | inr h2 =>
        simp at h2
        exact hrest h2

/-- C3 counterexample: a concrete recursive step of fragmentize in which
the text strictly grows and the grammar is unchanged: for the grammar
whose single item is the group strong-or-em (a real dialect
configuration) on the text slash slash b slash slash, the step rewrites
the call into one on the placeholder-spliced text of length 7 (the input
has length 5) with the same grammar, refuting that every recursive step
strictly shrinks the text or the grammar. -/
theorem c3_counterexample :
    fragmentizeF 11 (chars "//b//") [GItem.group [strongEl, emEl]] [] true =
      fragmentizeF 10 (chars "<<<0>>>") [GItem.group [strongEl, emEl]]
        [(chars "0", Frag.node (chars "em") [Frag.txt (chars "b")])] true ∧
    nextElements [GItem.group [strongEl, emEl]] = [GItem.group [strongEl, emEl]] ∧
    (chars "<<<0>>>").length > (chars "//b//").length := by
  exact ⟨rfl, rfl, by decide⟩

/-- C3 (amended): fragmentize does not terminate for every text, grammar
and store: an inline element inside a group re-runs on the whole spliced
text, which can be strictly longer, with the grammar unchanged, and with
the group containing the InlineElement whose token is the less-than sign
the recursion on the text a-less-b never reaches a base case (every fuel
bound is exhausted); the no-match step does strictly shrink the
grammar. -/
theorem c3_termination :
    (∀ fuel, fragmentizeF fuel (chars "a<b") [GItem.group [ltInline]] [] true = none) ∧
    (∀ (n : Nat) (t : Text) (e : Elem) (rest : List GItem) (st : Store) (re : Bool),
      finditerM (Elem.matcher e) t = [] →
      fragmentizeF (n + 1) t (GItem.single e :: rest) st re =
        fragmentizeF n t rest st re) := by
  constructor
  · intro fuel
    cases fuel with
    | zero => rfl
    | succ k =>
      have hstep : fragmentizeF (k + 1) (chars "a<b") [GItem.group [ltInline]] [] true =
          inlineProcess (fragmentizeF k) ltInline [⟨1, 3, [['b']]⟩]
            (chars "a<b") [GItem.group [ltInline]] [] := by
        rw [fragmentizeF]
        rfl
      rw [hstep]
      cases k with
      | zero => rfl
      | succ j =>
        have haux : inlineProcessAux (fragmentizeF (j + 1)) ltInline [⟨1, 3, [['b']]⟩]
            (chars "a<b") 0 [] =
            some (chars "a<<<0>>>",
                  [(chars "0", Frag.node (chars "em") [Frag.txt ['b']])]) := rfl
        unfold inlineProcess
        rw [haux]
        exact ltInline_diverges_aux (j + 1) (chars "0>>>") _ (by decide)
  · intro n t e rest st re h
    rw [fragmentizeF, h]

/-- C3 witness: the grammar-shrinking no-match step at a concrete input
where the strong element has no match. -/
theorem c3_witness :
    fragmentizeF 5 (chars "xyz") [GItem.single strongEl] [] true =
      fragmentizeF 4 (chars "xyz") [] [] true := by
  exact c3_termination.2 4 (chars "xyz") strongEl [] [] true rfl

/-! ## C2: inline element processing -/

/-- An InlineElement whose token is the digit zero; placeholder text can
contain its token, which separates the two candidate recursion
grammars. -/
def zeroInline : Elem := Elem.inline (chars "em") (chars "0") []

def c2Store : Store := [(chars "0", Frag.node (chars "em") [Frag.txt (chars "b")])]

/-- Projection used to separate two concrete fragment streams. -/
def headTxtLen : Option (List Frag × Store) → Nat
  | some (Frag.txt s :: _, _) => s.length
  | _ => 0

/-- C2 counterexample: on the text a-zero-b with the single (ungrouped)
zero element, the actual recursive call of fragmentize after the
placeholder splice uses the remaining grammar with the element removed;
re-running with the same grammar (the element still a candidate, as the
claim states) gives a different result, because the element token
matches inside the spliced placeholder text. -/
theorem c2_counterexample :
    fragmentizeF 20 (chars "a0b") [GItem.single zeroInline] [] true =
      fragmentizeF 19 (chars "a<<<0>>>") [] c2Store true ∧
    fragmentizeF 19 (chars "a<<<0>>>") [] c2Store true ≠
      fragmentizeF 19 (chars "a<<<0>>>") [GItem.single zeroInline] c2Store true := by
  refine ⟨rfl, fun h => ?_⟩
  have h2 := congrArg headTxtLen h
  exact absurd h2 (by decide)

/-- C2 (amended): when an inline-family element at the head of the
grammar matches, all matches of the one finditer pass are built, stored
under fresh ids and replaced by literal placeholders in one splice, and
fragmentize is re-run on the whole modified text with the remaining
grammar, the matched element removed (it stays a candidate only when the
head is a group); for a single match the spliced text is the leading
text, the placeholder, and the trailing text. -/
theorem c2_inline_process :
    (∀ (n : Nat) (t : Text) (e : Elem) (g : List GItem) (st : Store) (mos : List MD),
      e.usesInlineProcess = true →
      finditerM (Elem.matcher e) t = mos → mos ≠ [] →
      fragmentizeF (n + 1) t (GItem.single e :: g) st true =
        (match inlineProcessAux (fragmentizeF n) e mos t 0 st with
         | some (newText, st2) => fragmentizeF n newText g st2 true
         | none => none)) ∧
    (∀ (n : Nat) (e : Elem) (mo : MD) (t : Text) (st : Store) (fr : Frag) (st1 : Store),
      Elem.build (fragmentizeF n) e mo st = some (some fr, st1) →
      inlineProcessAux (fragmentizeF n) e [mo] t 0 st =
        some (sliceTxt t 0 mo.s ++ chars "<<<" ++ natDigits st1.length ++
                chars ">>>" ++ (if mo.e < t.length then t.drop mo.e else []),
              st1 ++ [(natDigits st1.length, fr)])) := by
  constructor
  · intro n t e g st mos hinline hfind hne
    rw [fragmentizeF, hfind]
    cases mos with
    | nil => exact absurd rfl hne
    | cons mo more =>
      unfold Elem.process
      rw [hinline]
      unfold inlineProcess
      rfl
  · intro n e mo t st fr st1 hbuild
    unfold inlineProcessAux
    rw [hbuild]
    unfold inlineProcessAux
    rfl

/-- C2 witness: the two parts of the amended statement at the concrete
text a-zero-b. -/
theorem c2_witness :
    fragmentizeF 6 (chars "a0b") [GItem.single zeroInline] [] true =
      (match inlineProcessAux (fragmentizeF 5) zeroInline [⟨1, 3, [chars "b"]⟩]
          (chars "a0b") 0 [] with
       | some (newText, st2) => fragmentizeF 5 newText [] st2 true
       | none => none) ∧
    inlineProcessAux (fragmentizeF 5) zeroInline [⟨1, 3, [chars "b"]⟩]
        (chars "a0b") 0 [] =
      some (sliceTxt (chars "a0b") 0 1 ++ chars "<<<" ++ natDigits 0 ++
              chars ">>>" ++ (if 3 < (chars "a0b").length then (chars "a0b").drop 3 else []),
            [] ++ [(natDigits 0, Frag.node (chars "em") [Frag.txt (chars "b")])]) := by
  constructor
  · exact c2_inline_process.1 5 (chars "a0b") zeroInline [] [] [⟨1, 3, [chars "b"]⟩]
      rfl rfl (by simp)
  · exact c2_inline_process.2 5 zeroInline ⟨1, 3, [chars "b"]⟩ (chars "a0b") []
      (Frag.node (chars "em") [Frag.txt (chars "b")]) [] rfl

/-! ## C7: unterminated inline markup -/

/-- C7 counterexample: the end-of-text alternative of
SimpleElement.re_string makes the unterminated strong markup match to the
end of the text, so the parse output wraps the content in a strong node
rather than degrading to literal text. -/
theorem c7_counterexample :
    fragmentizeF 30 (chars "**bold without close") [GItem.single strongEl] [] true =
      some ([Frag.node (chars "strong") [Frag.txt (chars "bold without close")]],
            [(chars "0",
              Frag.node (chars "strong") [Frag.txt (chars "bold without close")])]) := by
  rfl

/-- C7 (amended): for the input star-star-bold-without-close the parse
succeeds for every sufficient fuel (no exception), and the output is the
content wrapped in a strong node up to the end of the text (the
end-of-text fallback completes the match instead of failing). -/
theorem c7_unterminated_inline :
    ∀ n : Nat,
      fragmentizeF (n + 2) (chars "**bold without close")
        [GItem.single strongEl] [] true =
        some ([Frag.node (chars "strong") [Frag.txt (chars "bold without close")]],
              [(chars "0",
                Frag.node (chars "strong") [Frag.txt (chars "bold without close")])]) := by
  intro n
  rfl

/-! ## C8: placeholder filling never fails -/

theorem prefixAt_decomp : ∀ (p t : Text), prefixAt p t = true →
    t = p ++ t.drop p.length := by
  intro p
  induction p with
  | nil => intro t _; rfl
  | cons a as ih =>
    intro t h
    cases t with
    | nil => cases h
    | cons b bs =>
      unfold prefixAt at h
      rw [Bool.and_eq_true] at h
      have hab : a = b := by simpa using h.1
      have := ih bs h.2
      rw [hab]
      simp only [List.cons_append, List.length_cons, List.drop_succ_cons]
      rw [← this]

theorem phPrefixGt_decomp (t : Text) (h : phPrefixGt t = true) :
    t = '>' :: '>' :: '>' :: t.drop 3 := by
  unfold phPrefixGt at h
  split at h
  · rfl
  · cases h

theorem placeHolderDigits_decomp : ∀ (cs acc ds tail : Text),
    placeHolderDigits acc cs = some (ds, tail) →
    ∃ mid, ds = acc ++ mid ∧ cs = mid ++ chars ">>>" ++ tail := by
  intro cs
  induction cs with
  | nil => intro acc ds tail h; cases h
  | cons c rest ih =>
    intro acc ds tail h
    unfold placeHolderDigits at h
    by_cases hd : isDigitChar c = true
    · rw [if_pos hd] at h
      by_cases hp : phPrefixGt rest = true
      · rw [if_pos hp] at h
        simp only [Option.some.injEq, Prod.mk.injEq] at h
        obtain ⟨rfl, rfl⟩ := h
        refine ⟨[c], rfl, ?_⟩
        have := phPrefixGt_decomp rest hp
        simp only [List.cons_append, List.nil_append]
        rw [this]
        rfl
      · rw [if_neg hp] at h
        obtain ⟨mid, hds, hcs⟩ := ih (acc ++ [c]) ds tail h
        refine ⟨c :: mid, ?_, ?_⟩
        · rw [hds]; simp
        · rw [List.cons_append, List.cons_append, ← hcs]
    · rw [if_neg hd] at h
      cases h

theorem placeHolderHere_decomp (cs grp tail : Text)
    (h : placeHolderHere cs = some (grp, tail)) :
    cs = placeHolderLiteral grp ++ tail := by
  unfold placeHolderHere at h
  split at h
  · rename_i rest
    split at h
    · rename_i rest2
      cases hdig : placeHolderDigits [] rest2 with
      | some p =>
        obtain ⟨ds, tl⟩ := p
        rw [hdig] at h
        simp only [Option.some.injEq, Prod.mk.injEq] at h
        obtain ⟨rfl, rfl⟩ := h
        obtain ⟨mid, hds, hcs⟩ := placeHolderDigits_decomp rest2 [] ds tl hdig
        simp only [List.nil_append] at hds
        subst hds
        rw [hcs]
        rfl
      | none =>
        rw [hdig] at h
        have h2 : placeHolderDigits [] ('-' :: rest2) = none := by
          unfold placeHolderDigits
          rw [if_neg (by decide)]
        rw [h2] at h
        cases h
    · cases hdig : placeHolderDigits [] rest with
      | some p =>
        obtain ⟨ds, tl⟩ := p
        rw [hdig] at h
        simp only [Option.some.injEq, Prod.mk.injEq] at h
        obtain ⟨rfl, rfl⟩ := h
        obtain ⟨mid, hds, hcs⟩ := placeHolderDigits_decomp rest [] ds tl hdig
        simp only [List.nil_append] at hds
        subst hds
        rw [hcs]
        rfl
      | none =>
        rw [hdig] at h
        cases h
  · cases h

theorem placeHolderSearch_decomp : ∀ (cs pre grp tail : Text),
    placeHolderSearch cs = some (pre, grp, tail) →
    cs = pre ++ placeHolderLiteral grp ++ tail := by
  intro cs
  induction cs with
  | nil => intro pre grp tail h; cases h
  | cons c rest ih =>
    intro pre grp tail h
    unfold placeHolderSearch at h
    cases hhere : placeHolderHere (c :: rest) with
    | some p =>
      obtain ⟨g2, t2⟩ := p
      rw [hhere] at h
      simp only [Option.some.injEq, Prod.mk.injEq] at h
      obtain ⟨rfl, rfl, rfl⟩ := h
      have := placeHolderHere_decomp (c :: rest) g2 t2 hhere
      rw [this]
      rfl
    | none =>
      rw [hhere] at h
      cases hsearch : placeHolderSearch rest with
      | some q =>
        obtain ⟨p2, g2, t2⟩ := q
        rw [hsearch] at h
        simp only [Option.some.injEq, Prod.mk.injEq] at h
        obtain ⟨rfl, rfl, rfl⟩ := h
        have := ih p2 g2 t2 hsearch
        simp [this]
      | none =>
        rw [hsearch] at h
        cases h

theorem fillFromStoreAux_empty : ∀ (fuel : Nat) (cs : Text), cs.length < fuel →
    ∃ parts : List Text,
      fillFromStoreAux fuel cs [] = parts.map Frag.txt ∧ parts.flatten = cs := by
  intro fuel
  induction fuel with
  | zero => intro cs h; exact absurd h (Nat.not_lt_zero _)
  | succ f ih =>
    intro cs hlen
    unfold fillFromStoreAux
    cases hs : placeHolderSearch cs with
    | none => exact ⟨[cs], rfl, by simp⟩
    | some p =>
      obtain ⟨pre, grp, tail⟩ := p
      have hdec := placeHolderSearch_decomp cs pre grp tail hs
      have hlt : tail.length < cs.length := by
        rw [hdec]
        simp [placeHolderLiteral, chars]
        omega
      by_cases htail : tail = []
      · subst htail
        by_cases hpre : pre = []
        · subst hpre
          refine ⟨[placeHolderLiteral grp], ?_, ?_⟩
          · simp [storeLookup]
          · rw [hdec]
            simp
        · refine ⟨[pre, placeHolderLiteral grp], ?_, ?_⟩
          · simp [storeLookup, hpre]
          · rw [hdec]
            simp
      · obtain ⟨parts2, h1, h2⟩ := ih tail (by omega)
        by_cases hpre : pre = []
        · subst hpre
          refine ⟨placeHolderLiteral grp :: parts2, ?_, ?_⟩
          · simp [storeLookup, htail, h1]
          · rw [hdec]
            simp [h2]
        · refine ⟨pre :: placeHolderLiteral grp :: parts2, ?_, ?_⟩
          · simp [storeLookup, hpre, htail, h1]
          · rw [hdec]
            simp [h2]

theorem placeHolderSearch_tail_lt (cs pre grp tail : Text)
    (h : placeHolderSearch cs = some (pre, grp, tail)) :
    tail.length < cs.length := by
  have hd := placeHolderSearch_decomp cs pre grp tail h
  rw [hd]
  simp only [placeHolderLiteral, List.length_append,
    show (chars "<<<" : Text).length = 3 from rfl,
    show (chars ">>>" : Text).length = 3 from rfl]
  omega

/-- fill_from_store ignores the exact fuel once it exceeds the text
length: the remainder after a placeholder match is strictly shorter. -/
theorem fillFromStoreAux_fuel : ∀ (n m : Nat) (cs : Text) (st : Store),
    cs.length < n → cs.length < m →
    fillFromStoreAux n cs st = fillFromStoreAux m cs st := by
  intro n
  induction n with
  | zero => exact fun m cs st hn _ => absurd hn (Nat.not_lt_zero _)
  | succ k ih =>
    intro m cs st hn hm
    cases m with
    | zero => exact absurd hm (Nat.not_lt_zero _)
    | succ j =>
      cases hs : placeHolderSearch cs with
      | none => simp [fillFromStoreAux, hs]
      | some p =>
        obtain ⟨pre, grp, tail⟩ := p
        have hlt := placeHolderSearch_tail_lt cs pre grp tail hs
        by_cases ht : tail = []
        · simp [fillFromStoreAux, hs, ht]
        · simp only [fillFromStoreAux, hs, if_neg ht]
          rw [ih j tail st (by omega) (by omega)]

/-- The recursion equation of fill_from_store for every text and every
store: no placeholder emits the whole text, a placeholder emits the text
before it (when nonempty), then the stored node when the id is a key of
the store and the literal placeholder otherwise, and the loop continues
on the remainder. -/
theorem fillFromStore_eq (st : Store) (cs : Text) :
    fillFromStore cs st =
      match placeHolderSearch cs with
      | none => [Frag.txt cs]
      | some (pre, grp, tail) =>
        (if pre = [] then [] else [Frag.txt pre]) ++
        [(storeLookup st grp).getD (Frag.txt (placeHolderLiteral grp))] ++
        (if tail = [] then [] else fillFromStore tail st) := by
  have h1 : fillFromStore cs st =
      (match placeHolderSearch cs with
       | none => [Frag.txt cs]
       | some (pre, grp, tail) =>
         (if pre = [] then [] else [Frag.txt pre]) ++
         [(storeLookup st grp).getD (Frag.txt (placeHolderLiteral grp))] ++
         (if tail = [] then [] else fillFromStoreAux cs.length tail st)) := rfl
  rw [h1]
  cases hs : placeHolderSearch cs with
  | none => rfl
  | some p =>
    obtain ⟨pre, grp, tail⟩ := p
    have hlt := placeHolderSearch_tail_lt cs pre grp tail hs
    show (if pre = [] then [] else [Frag.txt pre]) ++
        [(storeLookup st grp).getD (Frag.txt (placeHolderLiteral grp))] ++
        (if tail = [] then [] else fillFromStoreAux cs.length tail st) =
      (if pre = [] then [] else [Frag.txt pre]) ++
        [(storeLookup st grp).getD (Frag.txt (placeHolderLiteral grp))] ++
        (if tail = [] then [] else fillFromStore tail st)
    by_cases ht : tail = []
    · simp [ht]
    · simp only [if_neg ht]
      rw [show fillFromStore tail st = fillFromStoreAux (tail.length + 1) tail st
            from rfl,
          fillFromStoreAux_fuel cs.length (tail.length + 1) tail st hlt
            (Nat.lt_succ_self _)]

/-- C8: fill_from_store is total and cannot fail: the leftmost placeholder
search decomposes the text exactly around the literal placeholder
substring, and for every text and every store the output obeys the loop
equation — a placeholder whose id is a key of the store is replaced by
the stored node, one whose id is missing survives literally, and the
surrounding text is emitted intact; over the empty store the emitted text
fragments concatenate back to the input. -/
theorem c8_fill_from_store :
    (∀ (cs pre grp tail : Text),
      placeHolderSearch cs = some (pre, grp, tail) →
      cs = pre ++ placeHolderLiteral grp ++ tail) ∧
    (∀ (st : Store) (cs : Text),
      fillFromStore cs st =
        match placeHolderSearch cs with
        | none => [Frag.txt cs]
        | some (pre, grp, tail) =>
          (if pre = [] then [] else [Frag.txt pre]) ++
          [(storeLookup st grp).getD (Frag.txt (placeHolderLiteral grp))] ++
          (if tail = [] then [] else fillFromStore tail st)) ∧
    (∀ cs : Text, ∃ parts : List Text,
      fillFromStore cs [] = parts.map Frag.txt ∧ parts.flatten = cs) ∧
    (∀ v : Frag,
      fillFromStore (chars "x<<<123>>>y") [(chars "123", v)] =
        [Frag.txt (chars "x"), v, Frag.txt (chars "y")]) ∧
    fillFromStore (chars "x<<<123>>>y") [] =
      [Frag.txt (chars "x"), Frag.txt (chars "<<<123>>>"), Frag.txt (chars "y")] := by
  refine ⟨placeHolderSearch_decomp, fillFromStore_eq, ?_, ?_, ?_⟩
  · intro cs
    exact fillFromStoreAux_empty (cs.length + 1) cs (Nat.lt_succ_self _)
  · intro v
    rfl
  · rfl

/-- C8 witness: the decomposition, the resolution with a present key, and
the loop equation instantiated at a nonempty text over the empty store. -/
theorem c8_witness :
    chars "x<<<5>>>y" =
      chars "x" ++ placeHolderLiteral (chars "5") ++ chars "y" ∧
    fillFromStore (chars "x<<<5>>>y")
        [(chars "5", Frag.node (chars "em") [])] =
      [Frag.txt (chars "x"), Frag.node (chars "em") [], Frag.txt (chars "y")] ∧
    fillFromStore (chars "a<<<7>>>") [] =
      (match placeHolderSearch (chars "a<<<7>>>") with
       | none => [Frag.txt (chars "a<<<7>>>")]
       | some (pre, grp, tail) =>
         (if pre = [] then [] else [Frag.txt pre]) ++
         [(storeLookup ([] : Store) grp).getD (Frag.txt (placeHolderLiteral grp))] ++
         (if tail = [] then [] else fillFromStore tail ([] : Store))) := by
  refine ⟨?_, ?_, ?_⟩
  · exact c8_fill_from_store.1 (chars "x<<<5>>>y") (chars "x") (chars "5")
      (chars "y") rfl
  · rfl
  · exact c8_fill_from_store.2.1 [] (chars "a<<<7>>>")

/-! ## C9: per-invocation fragment store -/

/-- C9: Parser.generate with element_store None builds a fresh empty
store for exactly this invocation (core.py lines 63-64) and otherwise
uses precisely the store passed in; the parse reads no other state, so
two parses of the same text and grammar yield equal outputs and neither
can observe placeholder entries of the other (stores are values local to
each call in this embedding, mirroring the absence of module-level or
thread-local stores in src/creoleparser/core.py). -/
theorem c9_fresh_store :
    (∀ (g : List GItem) (fuel : Nat) (t : Text),
      parserGenerate g fuel t none = fragmentizeF fuel (preprocessTxt t) g [] true) ∧
    (∀ (g : List GItem) (fuel : Nat) (t : Text) (s : Store),
      parserGenerate g fuel t (some s) = fragmentizeF fuel (preprocessTxt t) g s true) ∧
    (∀ (g : List GItem) (fuel : Nat) (t : Text) (r1 r2 : Option (List Frag × Store)),
      r1 = parserGenerate g fuel t none → r2 = parserGenerate g fuel t none →
      r1 = r2) := by
  refine ⟨fun g fuel t => rfl, fun g fuel t s => rfl, ?_⟩
  intro g fuel t r1 r2 h1 h2
  rw [h1, h2]

/-- C9 witness: the fresh empty store and the equality of two sequential
parses at a concrete text containing markup. -/
theorem c9_witness :
    parserGenerate [GItem.single strongEl] 30 (chars "**b**") none =
      fragmentizeF 30 (preprocessTxt (chars "**b**")) [GItem.single strongEl] [] true ∧
    parserGenerate [GItem.single strongEl] 30 (chars "**b**") none =
      parserGenerate [GItem.single strongEl] 30 (chars "**b**") none := by
  constructor
  · exact c9_fresh_store.1 [GItem.single strongEl] 30 (chars "**b**")
  · exact c9_fresh_store.2.2 [GItem.single strongEl] 30 (chars "**b**") _ _ rfl rfl

/-! ## C6: bodied macro nesting counter -/

/-- The contribution of one scanned token to the counter: plus one for a
close token, minus one for an open token. -/
def tokDelta (name body : Text) (sp : Nat × Nat) : Int :=
  if isEndTok name body sp then 1 else -1

/-- The counter value after a prefix of the scanned tokens. -/
def runningCount (name body : Text) (l : List (Nat × Nat)) : Int :=
  (l.map (tokDelta name body)).sum

theorem runningCount_nil (name body : Text) : runningCount name body [] = 0 := rfl

theorem runningCount_cons (name body : Text) (sp : Nat × Nat) (l : List (Nat × Nat)) :
    runningCount name body (sp :: l) =
      tokDelta name body sp + runningCount name body l := by
  simp [runningCount]

theorem macroCountScan_cases (name body : Text) : ∀ (ts : List (Nat × Nat)) (c : Int),
    c ≤ 0 →
    (∃ j sp, ts.get? j = some sp ∧
      macroCountScan name body ts c = some sp ∧
      isEndTok name body sp = true ∧
      c + runningCount name body (ts.take (j + 1)) = 1 ∧
      (∀ k, k ≤ j → c + runningCount name body (ts.take k) ≤ 0)) ∨
    (macroCountScan name body ts c = none ∧
      ∀ k, k ≤ ts.length → c + runningCount name body (ts.take k) ≤ 0) := by
  intro ts
  induction ts with
  | nil =>
    intro c hc
    right
    refine ⟨rfl, ?_⟩
    intro k _
    simp [runningCount, hc]
  | cons sp rest ih =>
    intro c hc
    by_cases hend : isEndTok name body sp = true
    · by_cases hpos : c + 1 > 0
      · left
        have hc0 : c = 0 := le_antisymm hc (by omega)
        refine ⟨0, sp, rfl, ?_, hend, ?_, ?_⟩
        · unfold macroCountScan
          rw [if_pos hend, if_pos hpos]
        · rw [List.take_succ_cons, List.take_zero, runningCount_cons,
            runningCount_nil, hc0]
          simp [tokDelta, hend]
        · intro k hk
          interval_cases k
          simp [runningCount, hc]
      · have hscan : macroCountScan name body (sp :: rest) c =
            macroCountScan name body rest (c + 1) := by
          simp only [macroCountScan, hend, if_true]
          rw [if_neg hpos]
        have hc2 : c + 1 ≤ 0 := by omega
        have hdelta : tokDelta name body sp = 1 := by simp [tokDelta, hend]
        cases ih (c + 1) hc2 with
        | inl hl =>
          obtain ⟨j, sp2, hget, hscan2, hend2, hcount, hprefix⟩ := hl
          left
          refine ⟨j + 1, sp2, by simpa using hget, by rw [hscan]; exact hscan2,
            hend2, ?_, ?_⟩
          · rw [List.take_succ_cons, runningCount_cons, hdelta]
            omega
          · intro k hk
            cases k with
            | zero => simp [runningCount, hc]
            | succ k2 =>
              rw [List.take_succ_cons, runningCount_cons, hdelta]
              have := hprefix k2 (by omega)
              omega
        | inr hr =>
          obtain ⟨hscan2, hall⟩ := hr
          right
          refine ⟨by rw [hscan]; exact hscan2, ?_⟩
          intro k hk
          cases k with
          | zero => simp [runningCount, hc]
          | succ k2 =>
            rw [List.take_succ_cons, runningCount_cons, hdelta]
            have := hall k2 (by simpa using hk)
            omega
    · have hscan : macroCountScan name body (sp :: rest) c =
          macroCountScan name body rest (c - 1) := by
        have hend2 : isEndTok name body sp = false := by simpa using hend
        simp only [macroCountScan, hend2, Bool.false_eq_true, if_false]
        rw [if_neg (by omega)]
      have hc2 : c - 1 ≤ 0 := by omega
      have hdelta : tokDelta name body sp = -1 := by simp [tokDelta, hend]
      cases ih (c - 1) hc2 with
      | inl hl =>
        obtain ⟨j, sp2, hget, hscan2, hend2, hcount, hprefix⟩ := hl
        left
        refine ⟨j + 1, sp2, by simpa using hget, by rw [hscan]; exact hscan2,
          hend2, ?_, ?_⟩
        · rw [List.take_succ_cons, runningCount_cons, hdelta]
          omega
        · intro k hk
          cases k with
          | zero => simp [runningCount, hc]
          | succ k2 =>
            rw [List.take_succ_cons, runningCount_cons, hdelta]
            have := hprefix k2 (by omega)
            omega
      | inr hr =>
        obtain ⟨hscan2, hall⟩ := hr
        right
        refine ⟨by rw [hscan]; exact hscan2, ?_⟩
        intro k hk
        cases k with
        | zero => simp [runningCount, hc]
        | succ k2 =>
          rw [List.take_succ_cons, runningCount_cons, hdelta]
          have := hall k2 (by simpa using hk)
          omega

/-- C6: the counter scan of BodiedMacro._build selects the first scanned
close token at which the closes first outnumber the opens (the counter
first returns past zero, i.e. the true matching close of the outer open
in the balanced-delimiter sense: every proper prefix keeps the counter at
or below zero), cuts the body there and re-injects the remaining text
with the close token appended as the tail; when no such token exists the
whole body stands.  In the concrete nested same-name input the selected
close is the second close occurrence, not the first (the first closes the
nested macro), and the text after the true close is re-injected. -/
theorem c6_bodied_macro :
    (∀ name body : Text,
      (∃ j sp, (macroTokens name body).get? j = some sp ∧
        isEndTok name body sp = true ∧
        runningCount name body ((macroTokens name body).take (j + 1)) = 1 ∧
        (∀ k, k ≤ j → runningCount name body ((macroTokens name body).take k) ≤ 0) ∧
        bodiedSplit name body = (body.take sp.1, body.drop sp.2 ++ closeTokText name)) ∨
      ((∀ k, k ≤ (macroTokens name body).length →
          runningCount name body ((macroTokens name body).take k) ≤ 0) ∧
        bodiedSplit name body = (body, []))) ∧
    bodiedSplit (chars "m") (chars "A<<m>>B<</m>>C<</m>>x") =
      (chars "A<<m>>B<</m>>C", chars "x<</m>>") ∧
    macroTokens (chars "m") (chars "A<<m>>B<</m>>C<</m>>x") =
      [(1, 6), (7, 13), (14, 20)] ∧
    isEndTok (chars "m") (chars "A<<m>>B<</m>>C<</m>>x") (7, 13) = true ∧
    bodiedSplit (chars "m") (chars "A<</m>>B<<m>>C") =
      (chars "A", chars "B<<m>>C<</m>>") := by
  refine ⟨?_, rfl, rfl, rfl, rfl⟩
  intro name body
  cases macroCountScan_cases name body (macroTokens name body) 0 le_rfl with
  | inl hl =>
    obtain ⟨j, sp, hget, hscan, hend, hcount, hprefix⟩ := hl
    left
    refine ⟨j, sp, hget, hend, by simpa using hcount, ?_, ?_⟩
    · intro k hk
      have := hprefix k hk
      omega
    · unfold bodiedSplit
      rw [hscan]
  | inr hr =>
    obtain ⟨hscan, hall⟩ := hr
    right
    refine ⟨?_, ?_⟩
    · intro k hk
      have := hall k hk
      omega
    · unfold bodiedSplit
      rw [hscan]

/-! ## C10: the argument parser produces at most two fragments -/

theorem searchFrom_eq (m : Matcher) (i : Nat) (prev : Option Char) (t : Text) :
    searchFrom m i prev t =
      (match m i prev t with
       | some (len, caps) => some ⟨i, i + len, caps⟩
       | none =>
         match t with
         | [] => none
         | c :: rest => searchFrom m (i + 1) (some c) rest) := by
  cases t with
  | nil =>
    show (match m i prev [] with
          | some (len, caps) => some (MD.mk i (i + len) caps)
          | none => none) = _
    cases m i prev [] with
    | some r => cases r; rfl
    | none => rfl
  | cons c rest =>
    show (match m i prev (c :: rest) with
          | some (len, caps) => some (MD.mk i (i + len) caps)
          | none => searchFrom m (i + 1) (some c) rest) = _
    cases m i prev (c :: rest) with
    | some r => cases r; rfl
    | none => rfl

theorem posArgs_searchFrom_none (ch : List GItem) :
    ∀ (t2 : Text) (i : Nat) (prev : Option Char), i ≠ 0 →
      searchFrom (Elem.matcher (Elem.posArgs ch)) i prev t2 = none := by
  intro t2
  induction t2 with
  | nil =>
    intro i prev hi
    rw [searchFrom_eq]
    simp [Elem.matcher, posArgsHere, hi]
  | cons c rest ih =>
    intro i prev hi
    rw [searchFrom_eq]
    simp only [Elem.matcher, posArgsHere, hi, if_neg]
    exact ih (i + 1) (some c) (Nat.succ_ne_zero i)

theorem posArgs_finditer (ch : List GItem) (t : Text) :
    finditerM (Elem.matcher (Elem.posArgs ch)) t = [⟨0, t.length, [t]⟩] := by
  have hrest : ∀ fuel i prev t2, i ≠ 0 →
      finditerAux (Elem.matcher (Elem.posArgs ch)) fuel i prev t2 = [] := by
    intro fuel i prev t2 hi
    cases fuel with
    | zero => rfl
    | succ f =>
      unfold finditerAux
      rw [posArgs_searchFrom_none ch t2 i prev hi]
  cases t with
  | nil => rfl
  | cons c ts =>
    unfold finditerM
    unfold finditerAux
    have hsf : searchFrom (Elem.matcher (Elem.posArgs ch)) 0 none (c :: ts) =
        some ⟨0, (c :: ts).length, [c :: ts]⟩ := by
      rw [searchFrom_eq]
      simp [Elem.matcher, posArgsHere]
    rw [hsf]
    simp [hrest]

theorem posArgs_step (m : Nat) (t : Text) (ch : List GItem) (st : Store) :
    fragmentizeF (m + 1) t [GItem.single (Elem.posArgs ch)] st true =
      (if t = [] then some ([Frag.fragList []], st)
       else
         match fragmentizeF m t ch st true with
         | some (l, st2) => some ([Frag.fragList l], st2)
         | none => none) := by
  by_cases ht : t = []
  · subst ht
    rw [if_pos rfl]
    rfl
  · rw [if_neg ht]
    obtain ⟨c, ts, rfl⟩ : ∃ c ts, t = c :: ts := by
      cases t with
      | nil => exact absurd rfl ht
      | cons c ts => exact ⟨c, ts, rfl⟩
    rw [fragmentizeF, posArgs_finditer]
    cases hf : fragmentizeF m (c :: ts) ch st true with
    | none =>
      simp [Elem.process, Elem.usesInlineProcess, genericProcessAux, Elem.build, hf]
    | some p =>
      obtain ⟨l, st2⟩ := p
      simp [Elem.process, Elem.usesInlineProcess, genericProcessAux, Elem.build,
        Elem.appendNewline, hf]

theorem posArgs_frag (n : Nat) (t : Text) (ch : List GItem) (st : Store)
    (frs : List Frag) (st2 : Store)
    (h : fragmentizeF n t [GItem.single (Elem.posArgs ch)] st true = some (frs, st2)) :
    ∃ l, frs = [Frag.fragList l] := by
  cases n with
  | zero => cases h
  | succ m =>
    rw [posArgs_step] at h
    by_cases ht : t = []
    · rw [if_pos ht] at h
      simp only [Option.some.injEq, Prod.mk.injEq] at h
      exact ⟨[], h.1.symm⟩
    · rw [if_neg ht] at h
      cases hf : fragmentizeF m t ch st true with
      | none => rw [hf] at h; cases h
      | some p =>
        obtain ⟨l, st3⟩ := p
        rw [hf] at h
        simp only [Option.some.injEq, Prod.mk.injEq] at h
        exact ⟨l, h.1.symm⟩

theorem kwHeadOk_nil : kwHeadOk [] = false := rfl

theorem kwArgs_searchFrom (ch : List GItem) : ∀ (t2 : Text) (i : Nat)
    (prev : Option Char) (md : MD),
    searchFrom (Elem.matcher (Elem.kwArgs ch)) i prev t2 = some md →
    ∃ k, k < t2.length ∧
      md = ⟨i + k, i + k + (t2.drop k).length, [t2.drop k]⟩ := by
  intro t2
  induction t2 with
  | nil =>
    intro i prev md h
    rw [searchFrom_eq] at h
    simp [Elem.matcher, kwArgsHere, kwHeadOk_nil] at h
  | cons c rest ih =>
    intro i prev md h
    rw [searchFrom_eq] at h
    by_cases hk : kwHeadOk (c :: rest) = true
    · have hm : Elem.matcher (Elem.kwArgs ch) i prev (c :: rest) =
          some ((c :: rest).length, [c :: rest]) := by
        show kwArgsHere i prev (c :: rest) = _
        unfold kwArgsHere
        rw [if_pos hk]
      rw [hm] at h
      simp only [Option.some.injEq] at h
      refine ⟨0, by simp, ?_⟩
      rw [← h]
      simp
    · have hm : Elem.matcher (Elem.kwArgs ch) i prev (c :: rest) = none := by
        show kwArgsHere i prev (c :: rest) = _
        unfold kwArgsHere
        rw [if_neg hk]
      rw [hm] at h
      obtain ⟨k2, hlt, hmd⟩ := ih (i + 1) (some c) md h
      refine ⟨k2 + 1, by simpa using hlt, ?_⟩
      rw [hmd]
      simp only [List.drop_succ_cons, MD.mk.injEq]
      refine ⟨by omega, by omega, trivial⟩

theorem kwArgs_matcher_nil (ch : List GItem) (i : Nat) (prev : Option Char) :
    searchFrom (Elem.matcher (Elem.kwArgs ch)) i prev [] = none := by
  rw [searchFrom_eq]
  simp [Elem.matcher, kwArgsHere, kwHeadOk_nil]

theorem kwArgs_finditer (ch : List GItem) (t : Text) :
    finditerM (Elem.matcher (Elem.kwArgs ch)) t = [] ∨
    ∃ k, k < t.length ∧
      finditerM (Elem.matcher (Elem.kwArgs ch)) t = [⟨k, t.length, [t.drop k]⟩] := by
  unfold finditerM
  unfold finditerAux
  cases hsf : searchFrom (Elem.matcher (Elem.kwArgs ch)) 0 none t with
  | none => left; rfl
  | some md =>
    obtain ⟨k, hlt, hmd⟩ := kwArgs_searchFrom ch t 0 none md hsf
    right
    have hdroplen : (t.drop k).length = t.length - k := List.length_drop k t
    have he : k + (t.drop k).length = t.length := by omega
    refine ⟨k, hlt, ?_⟩
    subst hmd
    simp only [Nat.zero_add] at *
    have hne : ¬ (k + (t.drop k).length = k) := by omega
    rw [if_neg hne]
    have hdrop : t.drop (k + (t.drop k).length - 0) = [] := by
      rw [Nat.sub_zero, he, List.drop_length]
    rw [hdrop]
    have hfin : ∀ fuel i2 prev2,
        finditerAux (Elem.matcher (Elem.kwArgs ch)) fuel i2 prev2 [] = [] := by
      intro fuel i2 prev2
      cases fuel with
      | zero => rfl
      | succ f =>
        unfold finditerAux
        rw [kwArgs_matcher_nil]
    rw [hfin]
    simp [MD.mk.injEq]
    omega

theorem genericProcessAux_nil_end (f : FragFun) (e : Elem) (t : Text)
    (g : List GItem) (st : Store) :
    genericProcessAux f e [] t g t.length st = some ([], st) := by
  unfold genericProcessAux
  rw [if_neg (lt_irrefl _)]

theorem kwPos_frags : ∀ (n : Nat) (t : Text) (chK chP : List GItem) (st : Store)
    (frs : List Frag) (st2 : Store),
    fragmentizeF n t
      [GItem.single (Elem.kwArgs chK), GItem.single (Elem.posArgs chP)] st true =
      some (frs, st2) →
    frs.length ≤ 2 ∧
    ∀ fr ∈ frs, (∃ l, fr = Frag.fragList l) ∨ (∃ d, fr = Frag.fdict d) := by
  intro n t chK chP st frs st2 h
  cases n with
  | zero => cases h
  | succ m =>
    rw [fragmentizeF] at h
    rcases kwArgs_finditer chK t with hfin | ⟨k, hk, hfin⟩
    · rw [hfin] at h
      obtain ⟨l, rfl⟩ := posArgs_frag m t chP st frs st2 h
      refine ⟨by simp, ?_⟩
      intro fr hfr
      simp only [List.mem_singleton] at hfr
      subst hfr
      exact Or.inl ⟨l, rfl⟩
    · rw [hfin] at h
      have h2 : (match (if (0 : Nat) ≠ k then
            fragmentizeF m (sliceTxt t 0 k) [GItem.single (Elem.posArgs chP)] st true
          else some ([], st)) with
        | none => (none : Option (List Frag × Store))
        | some (lead, st1) =>
          (match (match fragmentizeF m (t.drop k) chK st1 true with
                  | some (l, st3) =>
                    (match dictify l with
                     | some d => some (some (Frag.fdict d), st3)
                     | none => none)
                  | none => none) with
           | none => none
           | some (builtOpt, st3) =>
             (match genericProcessAux (fragmentizeF m) (Elem.kwArgs chK) [] t
                 [GItem.single (Elem.kwArgs chK), GItem.single (Elem.posArgs chP)]
                 t.length st3 with
              | none => none
              | some (tailFrags, st4) =>
                some (lead ++
                       ((match builtOpt with
                         | some b2 => [b2]
                         | none => []) ++
                        (if (Elem.kwArgs chK).appendNewline = true then [Frag.txt ['\n']]
                         else [])) ++ tailFrags, st4)))) = some (frs, st2) := h
      clear h
      cases hlead : (if (0 : Nat) ≠ k then
          fragmentizeF m (sliceTxt t 0 k) [GItem.single (Elem.posArgs chP)] st true
        else some ([], st)) with
      | none => rw [hlead] at h2; cases h2
      | some p =>
        obtain ⟨lead, st1⟩ := p
        rw [hlead] at h2
        have h3 : (match (match fragmentizeF m (t.drop k) chK st1 true with
                  | some (l, st3) =>
                    (match dictify l with
                     | some d => some (some (Frag.fdict d), st3)
                     | none => none)
                  | none => none) with
           | none => (none : Option (List Frag × Store))
           | some (builtOpt, st3) =>
             (match genericProcessAux (fragmentizeF m) (Elem.kwArgs chK) [] t
                 [GItem.single (Elem.kwArgs chK), GItem.single (Elem.posArgs chP)]
                 t.length st3 with
              | none => none
              | some (tailFrags, st4) =>
                some (lead ++
                       ((match builtOpt with
                         | some b2 => [b2]
                         | none => []) ++
                        (if (Elem.kwArgs chK).appendNewline = true then [Frag.txt ['\n']]
                         else [])) ++ tailFrags, st4))) = some (frs, st2) := h2
        clear h2
        have hleadshape : lead = [] ∨ ∃ l, lead = [Frag.fragList l] := by
          by_cases hk0 : (0 : Nat) ≠ k
          · rw [if_pos hk0] at hlead
            exact Or.inr (posArgs_frag m (sliceTxt t 0 k) chP st lead st1 hlead)
          · rw [if_neg hk0] at hlead
            simp only [Option.some.injEq, Prod.mk.injEq] at hlead
            exact Or.inl hlead.1.symm
        cases hmid : fragmentizeF m (t.drop k) chK st1 true with
        | none => rw [hmid] at h3; simp at h3
        | some q =>
          obtain ⟨l, st3⟩ := q
          rw [hmid] at h3
          have h4 : (match (match dictify l with
                     | some d => some (some (Frag.fdict d), st3)
                     | none => none) with
             | none => (none : Option (List Frag × Store))
             | some (builtOpt, st4) =>
               (match genericProcessAux (fragmentizeF m) (Elem.kwArgs chK) [] t
                   [GItem.single (Elem.kwArgs chK), GItem.single (Elem.posArgs chP)]
                   t.length st4 with
                | none => none
                | some (tailFrags, st5) =>
                  some (lead ++
                         ((match builtOpt with
                           | some b2 => [b2]
                           | none => []) ++
                          (if (Elem.kwArgs chK).appendNewline = true then [Frag.txt ['\n']]
                           else [])) ++ tailFrags, st5))) = some (frs, st2) := h3
          clear h3
          cases hd : dictify l with
          | none => rw [hd] at h4; simp at h4
          | some d =>
            rw [hd] at h4
            have h5 : (match genericProcessAux (fragmentizeF m) (Elem.kwArgs chK) [] t
                   [GItem.single (Elem.kwArgs chK), GItem.single (Elem.posArgs chP)]
                   t.length st3 with
               | none => (none : Option (List Frag × Store))
               | some (tailFrags, st5) =>
                 some (lead ++
                        ([Frag.fdict d] ++
                         (if (Elem.kwArgs chK).appendNewline = true then [Frag.txt ['\n']]
                          else [])) ++ tailFrags, st5)) = some (frs, st2) := h4
            clear h4
            rw [genericProcessAux_nil_end] at h5
            simp only [Elem.appendNewline, Bool.false_eq_true, if_false,
              List.append_nil, Option.some.injEq, Prod.mk.injEq] at h5
            obtain ⟨hfrs, _⟩ := h5
            subst hfrs
            rcases hleadshape with rfl | ⟨l2, rfl⟩
            · refine ⟨by simp, ?_⟩
              intro fr hfr
              simp at hfr
              subst hfr
              exact Or.inr ⟨d, rfl⟩
            · refine ⟨by simp, ?_⟩
              intro fr hfr
              simp at hfr
              rcases hfr with rfl | rfl
              · exact Or.inl ⟨l2, rfl⟩
              · exact Or.inr ⟨d, rfl⟩

theorem argFoldShape : ∀ (frs : List Frag) (acc1 : List Frag)
    (acc2 : List (Text × Frag)),
    (∀ fr ∈ frs, (∃ l, fr = Frag.fragList l) ∨ ∃ d, fr = Frag.fdict d) →
    ∃ l d, frs.foldl argAcc (Frag.fragList acc1, Frag.fdict acc2) =
      (Frag.fragList l, Frag.fdict d) := by
  intro frs
  induction frs with
  | nil => exact fun acc1 acc2 _ => ⟨acc1, acc2, rfl⟩
  | cons fr rest ih =>
    intro acc1 acc2 hshape
    rcases hshape fr (List.mem_cons_self fr rest) with ⟨l, rfl⟩ | ⟨d, rfl⟩
    · exact ih l acc2 (fun f2 h2 => hshape f2 (List.mem_cons_of_mem _ h2))
    · exact ih acc1 d (fun f2 h2 => hshape f2 (List.mem_cons_of_mem _ h2))

theorem creepy_frags (n : Nat) (t : Text) (st : Store) (frs : List Frag)
    (st2 : Store)
    (h : fragmentizeF n t creepyTop st true = some (frs, st2)) :
    frs.length ≤ 2 ∧
    ∀ fr ∈ frs, (∃ l, fr = Frag.fragList l) ∨ (∃ d, fr = Frag.fdict d) := by
  cases n with
  | zero => cases h
  | succ m =>
    unfold creepyTop at h
    rw [fragmentizeF] at h
    cases hfin : finditerM (Elem.matcher quotedArgE) t with
    | nil =>
      rw [hfin] at h
      exact kwPos_frags m t [GItem.single kwArgE]
        [GItem.single listArgE, GItem.single spacesE] st frs st2 h
    | cons mo mos =>
      rw [hfin] at h
      have h3 : (match inlineProcessAux (fragmentizeF m) quotedArgE (mo :: mos) t 0 st with
         | some (newText, st3) =>
           fragmentizeF m newText [GItem.single kwArgsE, GItem.single posArgsE] st3 true
         | none => (none : Option (List Frag × Store))) = some (frs, st2) := h
      clear h
      cases hip : inlineProcessAux (fragmentizeF m) quotedArgE (mo :: mos) t 0 st with
      | none => rw [hip] at h3; cases h3
      | some p =>
        obtain ⟨newText, st3⟩ := p
        rw [hip] at h3
        exact kwPos_frags m newText [GItem.single kwArgE]
          [GItem.single listArgE, GItem.single spacesE] st3 frs st2 h3

/-- C10 counterexample: ArgParser.__call__ does not return a two-tuple
for every argument string.  On the string a-equals-one-newline the
KeywordArgs match (DOTALL, so the greedy body crosses the newline)
delegates the whole text to the KeywordArg child, whose non-MULTILINE
dollar lookahead stops before the final newline; the stray newline text
fragment reaches dictify, whose two-element unpacking fails (the
ValueError of KeywordArgs.dictify), so fragmentize over the argument
grammar fails and ArgParser.__call__ raises instead of returning — in
this embedding, none. -/
theorem c10_counterexample :
    fragmentizeF 12 (chars "a=1\n") [GItem.single kwArgE] [] true =
      some ([Frag.pair (chars "a") (Frag.txt (chars "1")), Frag.txt ['\n']], []) ∧
    dictify [Frag.pair (chars "a") (Frag.txt (chars "1")), Frag.txt ['\n']] =
      none ∧
    fragmentizeF 39 (chars "a=1\n") creepyTop [] true = none ∧
    argParserCall 40 (chars "a=1\n") = none := by
  exact ⟨rfl, rfl, rfl, rfl⟩

/-- C10 (amended): on every argument string for which fragmentize over
the creepy argument dialect's top elements (quoted_arg, kw_args,
pos_args) succeeds — ArgParser.__call__ raises on some strings, such as
a keyword argument followed by a newline — the result has at most two
top-level fragments, each a positional-argument list or a
keyword-argument dict, so the assertion len(frags) <= 2 in
ArgParser.__call__ never fails and the call returns a (list, dict)
two-tuple. -/
theorem c10_arg_parser_two_frags (fuel : Nat) (s : Text) (frs : List Frag)
    (st : Store)
    (h : fragmentizeF fuel s creepyTop [] true = some (frs, st)) :
    frs.length ≤ 2 ∧
    (∀ fr ∈ frs, (∃ l, fr = Frag.fragList l) ∨ ∃ d, fr = Frag.fdict d) ∧
    ∃ l d, argParserCall fuel s = some (Frag.fragList l, Frag.fdict d) := by
  obtain ⟨hlen, hshape⟩ := creepy_frags fuel s [] frs st h
  obtain ⟨l, d, hfold⟩ := argFoldShape frs [] [] hshape
  refine ⟨hlen, hshape, l, d, ?_⟩
  unfold argParserCall
  rw [h]
  have hgoal : (if frs.length ≤ 2 then
      some (frs.foldl argAcc (Frag.fragList [], Frag.fdict []))
    else (none : Option (Frag × Frag))) = some (Frag.fragList l, Frag.fdict d) := by
    rw [if_pos hlen, hfold]
  exact hgoal

theorem c10_witness :
    ([Frag.fragList [], Frag.fdict [(chars "foo", Frag.txt (chars "one"))]] :
      List Frag).length ≤ 2 ∧
    (∀ fr ∈ ([Frag.fragList [],
        Frag.fdict [(chars "foo", Frag.txt (chars "one"))]] : List Frag),
      (∃ l, fr = Frag.fragList l) ∨ ∃ d, fr = Frag.fdict d) ∧
    ∃ l d, argParserCall 40 (chars " foo='one' ") =
      some (Frag.fragList l, Frag.fdict d) :=
  c10_arg_parser_two_frags 40 (chars " foo='one' ")
    [Frag.fragList [], Frag.fdict [(chars "foo", Frag.txt (chars "one"))]]
    [(chars "0", Frag.txt (chars "one"))] rfl
